import Mathlib

/-!
Verification of the ARCFrontEnd client core: a shallow embedding of the
streaming query pipeline controller and the batch upload orchestrator from
`src/context/AppContext.tsx`, together with the citation-check lookup from
`src/components/ResponseCard.tsx` and the task-control gating from
`src/components/Header.tsx`.

Modelling conventions:
- TypeScript objects become Lean structures; optional fields become `Option`.
- JavaScript `number` confidence values (0..1) are modelled as `Rat`; integer
  counters as `Nat`/`Int`.
- The React reducer `appReducer` is a pure function `AppState → Action → AppState`,
  restricted to the state fields and actions the verified components touch
  (presentational fields such as theme, sidebar, papers pagination are omitted;
  none of the verified code paths read them).
- `Partial<UploadTask>` update records: a key present with value `undefined`
  still overrides the field (JS spread semantics), so such fields are modelled
  as `Option (Option _)`: `none` = key absent, `some none` = key present with
  `undefined`.
-/

namespace ARC

/-- Status of one pipeline step (`PipelineStepInfo['status']` in `types/index.ts`). -/
inductive StepStatus where
  | pending
  | active
  | completed
  | skipped
  | failed
deriving DecidableEq, Repr

/-- Citation verification record (`CitationCheck` in `types/index.ts`);
`confidence` (a JS number in 0..1) is modelled as `Rat`. -/
structure CitationCheck where
  citation_id : Int
  claim : String
  confidence : Rat
  is_valid : Bool
  explanation : String
deriving DecidableEq, Repr

/-- The opaque `data` payload of a progress event, restricted to the fields the
client reads: `status`, `skipped` (modelled as its JS truthiness), `success`,
`chunk`, `message`, and the citation fields read by the `citation_verified`
handler (`data.citation_id as number`, ...). -/
structure EventData where
  status : Option String := none
  skipped : Bool := false
  success : Option Bool := none
  chunk : Option String := none
  message : Option String := none
  citation_id : Int := 0
  claim : String := ""
  confidence : Rat := 0
  is_valid : Bool := false
  explanation : String := ""
deriving DecidableEq, Repr

instance : Inhabited EventData := ⟨{}⟩

/-- A `{type: "progress", step, data}` stream event. The `step` field is a
string in the wire protocol (the TS code casts it to `PipelineStepName`), so it
is modelled as `String`. -/
structure ProgressEvent where
  step : String
  data : Option EventData
deriving DecidableEq, Repr

/-- One entry of the visible pipeline list (`PipelineStepInfo`), keeping the
fields the reducer reads and writes (`label`/`description` are presentational
constants). -/
structure PipelineStepInfo where
  name : String
  status : StepStatus
  data : Option EventData
deriving DecidableEq, Repr

/-- The canonical ordered step list `PIPELINE_STEPS` from `types/index.ts`
(names only). -/
def PIPELINE_STEPS : List String :=
  ["rewriting", "entities", "classification", "expansion", "hyde",
   "retrieval", "reranking", "generation", "verification", "web_search"]

/-- Message metadata, restricted to the `citationChecks` bag the streaming code
reads and writes. -/
structure MessageMeta where
  citationChecks : Option (List CitationCheck)
deriving DecidableEq, Repr

/-- Message kind (`'query' | 'response'`). -/
inductive MessageType where
  | query
  | response
deriving DecidableEq, Repr

/-- A conversation message (`Message` in `types/index.ts`, without the `Date`
timestamp, which no verified path reads). -/
structure Message where
  id : String
  type : MessageType
  content : String
  metadata : Option MessageMeta
deriving DecidableEq, Repr

/-- A conversation (timestamps omitted as above). -/
structure Conversation where
  id : String
  title : String
  messages : List Message
deriving DecidableEq, Repr

/-- `StreamingState` from `types/index.ts`. -/
structure StreamingState where
  messageId : String
  conversationId : String
  content : String
  citationChecks : List CitationCheck
  isStreaming : Bool
deriving DecidableEq, Repr

/-- `UploadTaskStatus` from `types/index.ts`. -/
inductive UploadTaskStatus where
  | pending
  | uploading
  | processing
  | extracting
  | embedding
  | indexing
  | complete
  | error
deriving DecidableEq, Repr

/-- An upload task (`UploadTask`); the in-memory `file` reference is modelled
by its presence flag `hasFile` (the scheduler only tests `if (!task.file)`). -/
structure UploadTask where
  taskId : String
  batchId : String
  filename : String
  paperId : Option String := none
  status : UploadTaskStatus
  currentStep : Option String := none
  progressPercent : Nat := 0
  errorMessage : Option String := none
  priority : Int := 0
  fileSize : Nat := 0
  hasFile : Bool := false
deriving DecidableEq, Repr

/-- A `Partial<UploadTask>` update record as dispatched by
`UPDATE_UPLOAD_TASK`. A field that is `some v` models a key present in the
partial object (even when `v` itself models `undefined`). -/
structure TaskUpdates where
  status : Option UploadTaskStatus := none
  currentStep : Option (Option String) := none
  progressPercent : Option Nat := none
  errorMessage : Option (Option String) := none
  paperId : Option (Option String) := none
deriving DecidableEq, Repr

/-- JS object spread `{...task, ...updates}`. -/
def applyTaskUpdates (t : UploadTask) (u : TaskUpdates) : UploadTask :=
  { t with
    status := u.status.getD t.status
    currentStep := u.currentStep.getD t.currentStep
    progressPercent := u.progressPercent.getD t.progressPercent
    errorMessage := u.errorMessage.getD t.errorMessage
    paperId := u.paperId.getD t.paperId }

/-- `BatchUpload` from `types/index.ts` (creation time omitted). -/
structure BatchUpload where
  batchId : String
  tasks : List UploadTask
  isMinimized : Bool := false
  skippedDuplicates : Option Nat := none
deriving DecidableEq, Repr

/-- The application state (`AppState`), restricted to the fields the verified
components read or write. -/
structure AppState where
  conversations : List Conversation := []
  pipelineProgress : Option (List PipelineStepInfo) := none
  streamingState : Option StreamingState := none
  webSearchProgress : Option String := none
  activeBatchUpload : Option BatchUpload := none
  isUploadPanelOpen : Bool := false
  isUploadPanelMinimized : Bool := false
deriving DecidableEq, Repr

/-- The reducer actions dispatched by the verified code paths. -/
inductive Action where
  | setPipelineProgress (payload : Option (List PipelineStepInfo))
  | updatePipelineStep (step : String) (status : StepStatus) (data : Option EventData)
  | appendStreamingChunk (payload : String)
  | addStreamingCitation (payload : CitationCheck)
  | setWebSearchProgress (payload : Option String)
  | startBatchUpload (payload : BatchUpload)
  | updateUploadTask (taskId : String) (updates : TaskUpdates)
  | cancelUploadTask (payload : String)
deriving Repr

/-- `appReducer` from `context/AppContext.tsx`, case for case. -/
def appReducer (state : AppState) (action : Action) : AppState :=
  match action with
  | .setPipelineProgress payload =>
      { state with pipelineProgress := payload }
  | .updatePipelineStep step status data =>
      match state.pipelineProgress with
      | none => state
      | some steps =>
          { state with
            pipelineProgress := some (steps.map (fun s =>
              if s.name = step then { s with status := status, data := data } else s)) }
  | .appendStreamingChunk payload =>
      match state.streamingState with
      | none => state
      | some ss =>
          { state with
            streamingState := some { ss with content := ss.content ++ payload }
            conversations := state.conversations.map (fun conv =>
              if conv.id = ss.conversationId then
                { conv with
                  messages := conv.messages.map (fun msg =>
                    if msg.id = ss.messageId then
                      { msg with content := ss.content ++ payload }
                    else msg) }
              else conv) }
  | .addStreamingCitation payload =>
      match state.streamingState with
      | none => state
      | some ss =>
          { state with
            streamingState := some { ss with citationChecks := ss.citationChecks ++ [payload] }
            conversations := state.conversations.map (fun conv =>
              if conv.id = ss.conversationId then
                { conv with
                  messages := conv.messages.map (fun msg =>
                    if msg.id = ss.messageId then
                      { msg with metadata := some ⟨some (ss.citationChecks ++ [payload])⟩ }
                    else msg) }
              else conv) }
  | .setWebSearchProgress payload =>
      { state with webSearchProgress := payload }
  | .startBatchUpload payload =>
      { state with
        activeBatchUpload := some payload
        isUploadPanelOpen := true
        isUploadPanelMinimized := false }
  | .updateUploadTask taskId updates =>
      match state.activeBatchUpload with
      | none => state
      | some batch =>
          { state with
            activeBatchUpload := some
              { batch with
                tasks := batch.tasks.map (fun task =>
                  if task.taskId = taskId then applyTaskUpdates task updates else task) } }
  | .cancelUploadTask payload =>
      match state.activeBatchUpload with
      | none => state
      | some batch =>
          { state with
            activeBatchUpload := some
              { batch with
                tasks := batch.tasks.map (fun task =>
                  if task.taskId = payload then
                    { task with status := .error, errorMessage := some "Cancelled" }
                  else task) } }


/-- C9 sanity example: appending a chunk with no streaming state is the
identity on a concrete state. -/
example : appReducer {} (.appendStreamingChunk "x") = ({} : AppState) := by rfl

/-- C9: when `streamingState` is `null`, `APPEND_STREAMING_CHUNK` and
`ADD_STREAMING_CITATION` leave the entire application state unchanged,
including every conversation's messages. -/
theorem c9_streaming_noop (st : AppState) (hs : st.streamingState = none)
    (chunk : String) (c : CitationCheck) :
    appReducer st (.appendStreamingChunk chunk) = st ∧
    appReducer st (.addStreamingCitation c) = st := by
  constructor <;> simp [appReducer, hs]

/-- Witness for C9 at a concrete state with a conversation present. -/
theorem c9_streaming_noop_witness :
    appReducer { conversations := [⟨"c1", "t", [⟨"m1", .response, "hello", none⟩]⟩] }
        (.appendStreamingChunk "x")
      = { conversations := [⟨"c1", "t", [⟨"m1", .response, "hello", none⟩]⟩] } ∧
    appReducer { conversations := [⟨"c1", "t", [⟨"m1", .response, "hello", none⟩]⟩] }
        (.addStreamingCitation ⟨1, "c", 1, true, "e"⟩)
      = { conversations := [⟨"c1", "t", [⟨"m1", .response, "hello", none⟩]⟩] } :=
  c9_streaming_noop _ rfl "x" ⟨1, "c", 1, true, "e"⟩

/-! ## Hash & Dedup Unit and the guards of `startBatchUpload`

`startBatchUpload` (AppContext.tsx): after the length guards it computes one
content digest per file, asks `api.checkDuplicates`, filters out files whose
digest appears in the response's `duplicates`, and either aborts (all files
duplicates) or initializes a batch with the unique files' names. The digest
itself is computed by the external crypto API, so a file is modelled as a
`name` together with its already-computed `hash`. The decision logic up to the
`initBatchUpload` call is the pure function `startBatchUploadPlan`; `noAction`
models the early `return`s that happen before any hashing, network call or
dispatch, and `abortAllDuplicates` models the alert-and-return path (no batch
is created). -/

/-- A file to upload: its name and its content digest. -/
structure FileRec where
  name : String
  hash : String
deriving DecidableEq, Repr

/-- One entry of `checkDuplicates`' `duplicates` response list. -/
structure DupRecord where
  hash : String
  paperId : String
  title : Option String
deriving DecidableEq, Repr

/-- `CheckDuplicatesResponse` from `services/api.ts`. -/
structure CheckDuplicatesResponse where
  duplicates : List DupRecord
  unique_count : Nat
  duplicate_count : Nat
deriving DecidableEq, Repr

/-- Outcome of the decision phase of `startBatchUpload`. -/
inductive UploadPlan where
  | noAction
  | abortAllDuplicates
  | proceed (filenames : List String) (skippedDuplicates : Nat)
deriving DecidableEq, Repr

/-- The unique-file filter of `startBatchUpload`: keep the files whose hash is
not in the reported duplicate set. -/
def uniqueFiles (files : List FileRec) (resp : CheckDuplicatesResponse) : List FileRec :=
  let duplicateHashes := resp.duplicates.map (·.hash)
  files.filter (fun fh => ¬ fh.hash ∈ duplicateHashes)

/-- The decision phase of `startBatchUpload`: the two length guards, the
duplicate filter, the all-duplicates abort, and the filename list passed to
`initBatchUpload` together with the `skippedDuplicates` count stored on the
batch (`duplicateCheck.duplicate_count`). -/
def startBatchUploadPlan (files : List FileRec) (resp : CheckDuplicatesResponse) : UploadPlan :=
  if files.length = 0 then .noAction
  else if files.length > 20 then .noAction
  else
    let unique := uniqueFiles files resp
    if unique.length = 0 then .abortAllDuplicates
    else .proceed (unique.map (·.name)) resp.duplicate_count

/-- Two `Nodup` lists of hashes, one contained in the other: the number of
files whose hash is reported duplicate is exactly the number of reported
duplicate hashes. -/
theorem countP_mem_eq_length (dh L : List String) (hnd : L.Nodup) (hdnd : dh.Nodup)
    (hsub : ∀ h ∈ dh, h ∈ L) :
    L.countP (fun x => x ∈ dh) = dh.length := by
  rw [List.countP_eq_length_filter]
  have hperm : (L.filter (fun x => decide (x ∈ dh))).Perm dh := by
    rw [List.perm_ext_iff_of_nodup (hnd.filter _) hdnd]
    intro a
    simp only [List.mem_filter, decide_eq_true_eq]
    exact ⟨fun h => h.2, fun h => ⟨hsub a h, h⟩⟩
  exact hperm.length_eq

/-- The count of unique files under the injectivity hypotheses of C5. -/
theorem uniqueFiles_length (files : List FileRec) (resp : CheckDuplicatesResponse)
    (hnd : (files.map (·.hash)).Nodup) (hdnd : (resp.duplicates.map (·.hash)).Nodup)
    (hsub : ∀ d ∈ resp.duplicates, d.hash ∈ files.map (·.hash)) :
    (uniqueFiles files resp).length = files.length - resp.duplicates.length := by
  unfold uniqueFiles
  rw [← List.countP_eq_length_filter]
  have hcount : files.countP (fun fh => fh.hash ∈ resp.duplicates.map (·.hash))
      = resp.duplicates.length := by
    have := countP_mem_eq_length (resp.duplicates.map (·.hash))
      (files.map (·.hash)) hnd hdnd (by simpa using hsub)
    rw [List.countP_map] at this
    simpa [Function.comp] using this
  have hsplit := List.length_eq_countP_add_countP
    (fun fh : FileRec => fh.hash ∈ resp.duplicates.map (·.hash)) files
  have hneg : files.countP
        (fun a => decide ¬((fun fh : FileRec => decide (fh.hash ∈ resp.duplicates.map (·.hash))) a = true))
      = files.countP (fun fh => fh.hash ∉ resp.duplicates.map (·.hash)) := by
    congr 1
    funext fh
    simp
  rw [hneg, hcount] at hsplit
  omega

/-- C5: for a submitted file set of size F of which the duplicate check reports
D known-duplicate hashes (each a distinct hash of one of the submitted files,
the files' hashes themselves distinct), the batch sent to initialization
contains exactly F−D filenames, and when D = F no batch is created and no
further upload action is taken. -/
theorem c5_dedup_count (files : List FileRec) (resp : CheckDuplicatesResponse)
    (hlen : 1 ≤ files.length) (hmax : files.length ≤ 20)
    (hnd : (files.map (·.hash)).Nodup) (hdnd : (resp.duplicates.map (·.hash)).Nodup)
    (hsub : ∀ d ∈ resp.duplicates, d.hash ∈ files.map (·.hash)) :
    (resp.duplicates.length < files.length →
      ∃ ns, startBatchUploadPlan files resp = .proceed ns resp.duplicate_count ∧
        ns.length = files.length - resp.duplicates.length) ∧
    (resp.duplicates.length = files.length →
      startBatchUploadPlan files resp = .abortAllDuplicates) := by
  have hu := uniqueFiles_length files resp hnd hdnd hsub
  constructor
  · intro hlt
    refine ⟨(uniqueFiles files resp).map (·.name), ?_, ?_⟩
    · unfold startBatchUploadPlan
      rw [if_neg (by omega), if_neg (by omega), if_neg (by omega)]
    · rw [List.length_map, hu]
  · intro heq
    unfold startBatchUploadPlan
    rw [if_neg (by omega), if_neg (by omega), if_pos (by omega)]

/-- Witness for C5: three files, one reported duplicate, batch of two names. -/
theorem c5_dedup_count_witness :
    (1 < 3 →
      ∃ ns, startBatchUploadPlan
          [⟨"a.pdf", "h1"⟩, ⟨"b.pdf", "h2"⟩, ⟨"c.pdf", "h3"⟩]
          ⟨[⟨"h2", "p1", some "T"⟩], 2, 1⟩ = .proceed ns 1 ∧ ns.length = 3 - 1) ∧
    (1 = 3 →
      startBatchUploadPlan
          [⟨"a.pdf", "h1"⟩, ⟨"b.pdf", "h2"⟩, ⟨"c.pdf", "h3"⟩]
          ⟨[⟨"h2", "p1", some "T"⟩], 2, 1⟩ = .abortAllDuplicates) :=
  c5_dedup_count [⟨"a.pdf", "h1"⟩, ⟨"b.pdf", "h2"⟩, ⟨"c.pdf", "h3"⟩]
    ⟨[⟨"h2", "p1", some "T"⟩], 2, 1⟩
    (by decide) (by decide) (by decide) (by decide) (by decide)

/-- C10: calling `startBatchUpload` with an empty file list or with more than
20 files takes the early-return path before any hashing, duplicate check,
network call or dispatch: the plan is `noAction` and does not depend on the
duplicate-check response at all. -/
theorem c10_guard_noop (files : List FileRec)
    (resp resp' : CheckDuplicatesResponse)
    (h : files.length = 0 ∨ files.length > 20) :
    startBatchUploadPlan files resp = .noAction ∧
    startBatchUploadPlan files resp = startBatchUploadPlan files resp' := by
  have key : ∀ r : CheckDuplicatesResponse, startBatchUploadPlan files r = .noAction := by
    intro r
    unfold startBatchUploadPlan
    rcases h with h | h
    · rw [if_pos h]
    · rw [if_neg (by omega), if_pos h]
  exact ⟨key resp, (key resp).trans (key resp').symm⟩

/-- Witness for C10: a batch of 21 identical files is rejected. -/
theorem c10_guard_noop_witness :
    startBatchUploadPlan (List.replicate 21 ⟨"a.pdf", "h"⟩) ⟨[], 0, 0⟩ = .noAction ∧
    startBatchUploadPlan (List.replicate 21 ⟨"a.pdf", "h"⟩) ⟨[], 0, 0⟩
      = startBatchUploadPlan (List.replicate 21 ⟨"a.pdf", "h"⟩) ⟨[⟨"h", "p", none⟩], 0, 1⟩ :=
  c10_guard_noop _ _ _ (Or.inr (by simp))

/-! ## Citation check map (`ResponseCard.tsx`)

`buildCitationCheckMap` folds the raw citation-check list into a JS `Map`
keyed by `citation_id`, keeping per key the entry with the strictly lowest
confidence seen so far. The JS `Map` is modelled as an insertion-ordered
association list with `mapGet`/`mapSet`. -/

/-- `Map.get` on the association-list model. -/
def mapGet (m : List (Int × CitationCheck)) (k : Int) : Option CitationCheck :=
  (m.find? (fun p => p.1 = k)).map (·.2)

/-- `Map.set` on the association-list model: replace in place if the key
exists, else append. -/
def mapSet (m : List (Int × CitationCheck)) (k : Int) (v : CitationCheck) :
    List (Int × CitationCheck) :=
  if (m.find? (fun p => p.1 = k)).isSome then
    m.map (fun p => if p.1 = k then (k, v) else p)
  else m ++ [(k, v)]

/-- One iteration of the `for (const check of citationChecks)` loop in
`buildCitationCheckMap`. -/
def citationStep (acc : List (Int × CitationCheck)) (check : CitationCheck) :
    List (Int × CitationCheck) :=
  match mapGet acc check.citation_id with
  | none => mapSet acc check.citation_id check
  | some existing =>
      if check.confidence < existing.confidence then mapSet acc check.citation_id check
      else acc

/-- `buildCitationCheckMap` from `ResponseCard.tsx` (the argument may be
`undefined`). -/
def buildCitationCheckMap (citationChecks : Option (List CitationCheck)) :
    List (Int × CitationCheck) :=
  match citationChecks with
  | none => []
  | some checks => checks.foldl citationStep []

theorem find?_map_update (m : List (Int × CitationCheck)) (k : Int) (v : CitationCheck) :
    ∀ k', k' ≠ k →
      (m.map (fun p => if p.1 = k then (k, v) else p)).find? (fun p => decide (p.1 = k'))
        = m.find? (fun p => decide (p.1 = k')) := by
  induction m with
  | nil => intro k' _; rfl
  | cons p rest ih =>
      intro k' hne
      by_cases hp : p.1 = k
      · have h1 : ¬ (k = k') := fun h => hne h.symm
        have h2 : ¬ (p.1 = k') := by rw [hp]; exact h1
        simp only [List.map_cons, if_pos hp]
        rw [List.find?_cons_of_neg _ (by simpa using h1),
          List.find?_cons_of_neg _ (by simpa using h2)]
        exact ih k' hne
      · simp only [List.map_cons, if_neg hp]
        by_cases hpk' : p.1 = k'
        · rw [List.find?_cons_of_pos _ (by simpa using hpk'),
            List.find?_cons_of_pos _ (by simpa using hpk')]
        · rw [List.find?_cons_of_neg _ (by simpa using hpk'),
            List.find?_cons_of_neg _ (by simpa using hpk')]
          exact ih k' hne

theorem find?_map_update_self (m : List (Int × CitationCheck)) (k : Int) (v : CitationCheck)
    (hfound : (m.find? (fun p => decide (p.1 = k))).isSome) :
    (m.map (fun p => if p.1 = k then (k, v) else p)).find? (fun p => decide (p.1 = k))
      = some (k, v) := by
  induction m with
  | nil => simp [List.find?] at hfound
  | cons p rest ih =>
      by_cases hp : p.1 = k
      · simp only [List.map_cons, if_pos hp]
        rw [List.find?_cons_of_pos _ (by simp)]
      · simp only [List.map_cons, if_neg hp]
        rw [List.find?_cons_of_neg _ (by simpa using hp)]
        rw [List.find?_cons_of_neg _ (by simpa using hp)] at hfound
        exact ih hfound

theorem mapGet_set_self (m : List (Int × CitationCheck)) (k : Int) (v : CitationCheck) :
    mapGet (mapSet m k v) k = some v := by
  unfold mapGet mapSet
  split
  · next hfound => rw [find?_map_update_self m k v hfound]; rfl
  · rw [List.find?_append]
    next hfound =>
      have hnone : m.find? (fun p => decide (p.1 = k)) = none := by
        cases h : m.find? (fun p => decide (p.1 = k)) with
        | none => rfl
        | some _ => rw [h] at hfound; simp at hfound
      rw [hnone]
      simp [List.find?]

theorem mapGet_set_other (m : List (Int × CitationCheck)) (k k' : Int) (v : CitationCheck)
    (hne : k' ≠ k) : mapGet (mapSet m k v) k' = mapGet m k' := by
  unfold mapGet mapSet
  split
  · rw [find?_map_update m k v k' hne]
  · rw [List.find?_append]
    cases h : m.find? (fun p => decide (p.1 = k')) with
    | some a => simp
    | none =>
        have : ¬ (k = k') := fun h => hne h.symm
        simp [List.find?, this]

/-- The loop invariant of `buildCitationCheckMap`: for every id, the map holds
`none` exactly when no processed entry has that id, and otherwise holds a
processed entry with that id whose confidence is minimal among processed
entries with that id. -/
def MapInv (acc : List (Int × CitationCheck)) (processed : List CitationCheck) : Prop :=
  ∀ id : Int,
    (mapGet acc id = none → ∀ c ∈ processed, c.citation_id ≠ id) ∧
    (∀ e, mapGet acc id = some e →
      e ∈ processed ∧ e.citation_id = id ∧
        ∀ c ∈ processed, c.citation_id = id → e.confidence ≤ c.confidence)

theorem citationStep_inv {acc : List (Int × CitationCheck)} {processed : List CitationCheck}
    (hinv : MapInv acc processed) (check : CitationCheck) :
    MapInv (citationStep acc check) (processed ++ [check]) := by
  intro id
  by_cases hid : id = check.citation_id
  · subst hid
    cases hg : mapGet acc check.citation_id with
    | none =>
        have hstep : citationStep acc check = mapSet acc check.citation_id check := by
          unfold citationStep; rw [hg]
        rw [hstep]
        refine ⟨?_, ?_⟩
        · rw [mapGet_set_self]; intro h; exact absurd h (by simp)
        · intro e he
          rw [mapGet_set_self] at he
          cases he
          exact ⟨by simp, rfl, by
            intro c hc hcid
            rcases List.mem_append.mp hc with hc | hc
            · exact absurd hcid ((hinv check.citation_id).1 hg c hc)
            · simp at hc; subst hc; exact le_refl _⟩
    | some existing =>
        have hex := (hinv check.citation_id).2 existing hg
        by_cases hlt : check.confidence < existing.confidence
        · have hstep : citationStep acc check = mapSet acc check.citation_id check := by
            unfold citationStep; rw [hg]; exact if_pos hlt
          rw [hstep]
          refine ⟨?_, ?_⟩
          · rw [mapGet_set_self]; intro h; exact absurd h (by simp)
          · intro e he
            rw [mapGet_set_self] at he
            cases he
            refine ⟨by simp, rfl, ?_⟩
            intro c hc hcid
            rcases List.mem_append.mp hc with hc | hc
            · exact le_of_lt (lt_of_lt_of_le hlt (hex.2.2 c hc hcid))
            · simp at hc; subst hc; exact le_refl _
        · have hstep : citationStep acc check = acc := by
            unfold citationStep; rw [hg]; exact if_neg hlt
          rw [hstep]
          refine ⟨?_, ?_⟩
          · intro h; rw [h] at hg; exact absurd hg (by simp)
          · intro e he
            rw [hg] at he
            cases he
            refine ⟨List.mem_append.mpr (Or.inl hex.1), hex.2.1, ?_⟩
            intro c hc hcid
            rcases List.mem_append.mp hc with hc | hc
            · exact hex.2.2 c hc hcid
            · simp at hc; subst hc; exact le_of_not_lt hlt
  · have hget : mapGet (citationStep acc check) id = mapGet acc id := by
      cases hg : mapGet acc check.citation_id with
      | none =>
          have hstep : citationStep acc check = mapSet acc check.citation_id check := by
            unfold citationStep; rw [hg]
          rw [hstep]
          exact mapGet_set_other _ _ _ _ hid
      | some existing =>
          by_cases hlt : check.confidence < existing.confidence
          · have hstep : citationStep acc check = mapSet acc check.citation_id check := by
              unfold citationStep; rw [hg]; exact if_pos hlt
            rw [hstep]
            exact mapGet_set_other _ _ _ _ hid
          · have hstep : citationStep acc check = acc := by
              unfold citationStep; rw [hg]; exact if_neg hlt
            rw [hstep]
    rw [hget] at *
    refine ⟨?_, ?_⟩
    · intro h c hc
      rcases List.mem_append.mp hc with hc | hc
      · exact (hinv id).1 h c hc
      · simp at hc; subst hc; exact fun hcc => hid hcc.symm
    · intro e he
      have hex := (hinv id).2 e he
      refine ⟨List.mem_append.mpr (Or.inl hex.1), hex.2.1, ?_⟩
      intro c hc hcid
      rcases List.mem_append.mp hc with hc | hc
      · exact hex.2.2 c hc hcid
      · simp at hc; subst hc; exact absurd hcid.symm hid

theorem foldl_citation_inv (rest : List CitationCheck) :
    ∀ (acc : List (Int × CitationCheck)) (processed : List CitationCheck),
      MapInv acc processed → MapInv (rest.foldl citationStep acc) (processed ++ rest) := by
  induction rest with
  | nil => intro acc processed h; simpa using h
  | cons c rest ih =>
      intro acc processed h
      have := ih (citationStep acc c) (processed ++ [c]) (citationStep_inv h c)
      simpa using this

/-- C6: `citationCheckMap` maps each citation id to an entry whose confidence
is the minimum among all entries in the list sharing that id, regardless of
the order in which the entries were appended; a later higher-confidence entry
for the same id never displaces a lower-confidence one, and every id that has
an entry in the list is present in the map. -/
theorem c6_citation_map_min (checks : List CitationCheck) (id : Int) :
    (∀ e, mapGet (buildCitationCheckMap (some checks)) id = some e →
      e ∈ checks ∧ e.citation_id = id ∧
        ∀ c ∈ checks, c.citation_id = id → e.confidence ≤ c.confidence) ∧
    ((∃ c ∈ checks, c.citation_id = id) →
      (mapGet (buildCitationCheckMap (some checks)) id).isSome) := by
  have hbase : MapInv [] [] := by
    intro id
    exact ⟨fun _ c hc => absurd hc (by simp), fun e he => absurd he (by simp [mapGet])⟩
  have hinv := foldl_citation_inv checks [] [] hbase
  simp only [List.nil_append] at hinv
  constructor
  · intro e he
    exact (hinv id).2 e (by simpa [buildCitationCheckMap] using he)
  · rintro ⟨c, hc, hcid⟩
    cases hg : mapGet (buildCitationCheckMap (some checks)) id with
    | none =>
        exact absurd hcid ((hinv id).1 (by simpa [buildCitationCheckMap] using hg) c hc)
    | some _ => simp

/-- Witness for C6: two checks for id 1, the later one with lower confidence
wins; the map entry is the minimal-confidence entry. -/
theorem c6_citation_map_min_witness :
    (⟨1, "c2", 0, false, "e2"⟩ : CitationCheck)
        ∈ [(⟨1, "c1", 1, true, "e1"⟩ : CitationCheck), ⟨1, "c2", 0, false, "e2"⟩] ∧
    (⟨1, "c2", 0, false, "e2"⟩ : CitationCheck).citation_id = 1 ∧
    ∀ c ∈ [(⟨1, "c1", 1, true, "e1"⟩ : CitationCheck), ⟨1, "c2", 0, false, "e2"⟩],
      c.citation_id = 1 → (⟨1, "c2", 0, false, "e2"⟩ : CitationCheck).confidence ≤ c.confidence :=
  (c6_citation_map_min [⟨1, "c1", 1, true, "e1"⟩, ⟨1, "c2", 0, false, "e2"⟩] 1).1
    ⟨1, "c2", 0, false, "e2"⟩ (by rfl)

/-! ## Task Control Unit (`cancelUploadTask` / `retryUploadTask`)

`cancelUploadTaskAction` and `retryUploadTaskAction` in `AppContext.tsx` are
no-ops when no batch is active; otherwise they call the remote endpoint and,
when that call succeeds, dispatch an unconditional local update for the
matching task (a remote failure is caught and dispatches nothing). The
status-based gating lives only in `Header.tsx` (`canCancel`/`canRetry`), which
decides whether the buttons are rendered. The `remoteOk` parameter models
whether the awaited remote call resolved or rejected. -/

/-- Lookup of a task by id inside the active batch. -/
def taskById (st : AppState) (tid : String) : Option UploadTask :=
  st.activeBatchUpload.bind (fun b => b.tasks.find? (fun t => t.taskId = tid))

/-- `cancelUploadTaskAction` from `AppContext.tsx`. -/
def cancelUploadTaskAction (st : AppState) (taskId : String) (remoteOk : Bool) : AppState :=
  match st.activeBatchUpload with
  | none => st
  | some _ => if remoteOk then appReducer st (.cancelUploadTask taskId) else st

/-- `retryUploadTaskAction` from `AppContext.tsx`: on success the dispatched
partial update carries `status: 'pending'`, `errorMessage: undefined` (key
present) and `progressPercent: 0`. -/
def retryUploadTaskAction (st : AppState) (taskId : String) (remoteOk : Bool) : AppState :=
  match st.activeBatchUpload with
  | none => st
  | some _ =>
      if remoteOk then
        appReducer st (.updateUploadTask taskId
          { status := some .pending, errorMessage := some none, progressPercent := some 0 })
      else st

/-- `canCancel` from `Header.tsx` (`['pending', 'uploading'].includes(task.status)`). -/
def canCancel (t : UploadTask) : Bool :=
  t.status ∈ [UploadTaskStatus.pending, UploadTaskStatus.uploading]

/-- `canRetry` from `Header.tsx` (`task.status === 'error'`). -/
def canRetry (t : UploadTask) : Bool := t.status = UploadTaskStatus.error

/-- A concrete state whose single task has completed. -/
def c4State : AppState :=
  { activeBatchUpload := some
      { batchId := "b1"
        tasks := [{ taskId := "t1", batchId := "b1", filename := "a.pdf",
                    status := .complete, progressPercent := 100 }] }
    isUploadPanelOpen := true }

/-- Counterexample to C4 as stated: calling cancel on a task whose status is
`complete` does change its state — the action dispatches unconditionally, so
the task flips to `error` with message "Cancelled"; likewise retry on the
(non-`error`) task resets it to `pending`. -/
theorem c4_counterexample :
    (taskById c4State "t1").map (fun t => t.status) = some .complete ∧
    (taskById (cancelUploadTaskAction c4State "t1" true) "t1").map (fun t => t.status)
      = some .error ∧
    (taskById (cancelUploadTaskAction c4State "t1" true) "t1").map (fun t => t.errorMessage)
      = some (some "Cancelled") ∧
    (taskById (retryUploadTaskAction c4State "t1" true) "t1").map (fun t => t.status)
      = some .pending := by
  refine ⟨rfl, rfl, rfl, rfl⟩

/-- A name-preserving key lemma: `find?` by key commutes with mapping a
key-preserving function over the list. -/
theorem find?_map_of_key {α : Type} (key : α → String) (f : α → α)
    (hf : ∀ a, key (f a) = key a) (l : List α) (n : String) :
    (l.map f).find? (fun a => decide (key a = n))
      = (l.find? (fun a => decide (key a = n))).map f := by
  induction l with
  | nil => rfl
  | cons a rest ih =>
      simp only [List.map_cons]
      by_cases h : key a = n
      · rw [List.find?_cons_of_pos _ (by simp [hf, h]),
          List.find?_cons_of_pos _ (by simp [h])]
        rfl
      · rw [List.find?_cons_of_neg _ (by simp [hf, h]),
          List.find?_cons_of_neg _ (by simp [h])]
        exact ih

/-- C4, amended: the status-based gating exists only in the UI — `canCancel`
holds exactly for `pending`/`uploading` tasks and `canRetry` exactly for
`error` tasks — while the cancel and retry actions themselves are
unconditional on the matching task's status: with an active batch and a
successful remote call, cancel sets the matching task to `error` with message
"Cancelled" and retry resets it to `pending` with cleared error and zero
progress, whatever its previous state; both actions are no-ops when no batch
is active or when the remote call fails. -/
theorem c4_cancel_retry_behavior (st : AppState) (tid : String) (t : UploadTask) :
    (canCancel t = true ↔ (t.status = .pending ∨ t.status = .uploading)) ∧
    (canRetry t = true ↔ t.status = .error) ∧
    (st.activeBatchUpload = none →
      cancelUploadTaskAction st tid true = st ∧ retryUploadTaskAction st tid true = st) ∧
    (cancelUploadTaskAction st tid false = st ∧ retryUploadTaskAction st tid false = st) ∧
    (∀ b, st.activeBatchUpload = some b →
      taskById (cancelUploadTaskAction st tid true) tid
        = (taskById st tid).map
            (fun x => { x with status := .error, errorMessage := some "Cancelled" }) ∧
      taskById (retryUploadTaskAction st tid true) tid
        = (taskById st tid).map
            (fun x => { x with status := .pending, errorMessage := none, progressPercent := 0 })) := by
  refine ⟨?_, ?_, ?_, ?_, ?_⟩
  · simp [canCancel]
  · simp [canRetry]
  · intro hb
    constructor <;> simp [cancelUploadTaskAction, retryUploadTaskAction, hb]
  · constructor
    · unfold cancelUploadTaskAction
      cases st.activeBatchUpload <;> simp
    · unfold retryUploadTaskAction
      cases st.activeBatchUpload <;> simp
  · intro b hb
    constructor
    · unfold cancelUploadTaskAction
      rw [hb]
      simp only [if_true]
      unfold appReducer taskById
      rw [hb]
      simp only [Option.some_bind]
      rw [find?_map_of_key (fun t => t.taskId)
        (fun task => if task.taskId = tid then
            { task with status := .error, errorMessage := some "Cancelled" } else task)
        (by intro a; by_cases h : a.taskId = tid <;> simp [h]) b.tasks tid]
      cases hx : b.tasks.find? (fun x => decide (x.taskId = tid)) with
      | none => rfl
      | some x =>
          have hxk := List.find?_some hx
          simp only [decide_eq_true_eq] at hxk
          simp [hxk]
    · unfold retryUploadTaskAction
      rw [hb]
      simp only [if_true]
      unfold appReducer taskById
      rw [hb]
      simp only [Option.some_bind]
      rw [find?_map_of_key (fun t => t.taskId)
        (fun task => if task.taskId = tid then
            applyTaskUpdates task
              { status := some .pending, errorMessage := some none, progressPercent := some 0 }
          else task)
        (by intro a; by_cases h : a.taskId = tid <;> simp [h, applyTaskUpdates]) b.tasks tid]
      cases hx : b.tasks.find? (fun x => decide (x.taskId = tid)) with
      | none => rfl
      | some x =>
          have hxk := List.find?_some hx
          simp only [decide_eq_true_eq] at hxk
          simp [hxk, applyTaskUpdates]

/-- Witness for C4's amended theorem at the concrete completed-task state. -/
theorem c4_cancel_retry_behavior_witness :
    taskById (cancelUploadTaskAction c4State "t1" true) "t1"
      = (taskById c4State "t1").map
          (fun x => { x with status := .error, errorMessage := some "Cancelled" }) ∧
    taskById (retryUploadTaskAction c4State "t1" true) "t1"
      = (taskById c4State "t1").map
          (fun x => { x with status := .pending, errorMessage := none, progressPercent := 0 }) :=
  (c4_cancel_retry_behavior c4State "t1"
      { taskId := "t1", batchId := "b1", filename := "a.pdf",
        status := .complete, progressPercent := 100 }).2.2.2.2
    _ rfl

/-! ## Pipeline Event Interpreter

The `event.type === 'progress'` branch of the stream callback inside
`submitQuery` (AppContext.tsx). The callback closes over three locals —
`completedSteps`, `streamedContent`, `streamedCitations` — modelled by
`SubmitCtx`, and dispatches reducer actions; `handleProgressEvent` performs one
callback invocation on the pair of app state and locals. -/

/-- `PIPELINE_STEPS.findIndex(p => p.name === name)` (−1 when absent). -/
def stepIdx (name : String) : Int :=
  match PIPELINE_STEPS.findIdx? (fun p => p = name) with
  | some i => (i : Int)
  | none => -1

/-- The locals captured by the stream callback in `submitQuery`. -/
structure SubmitCtx where
  completedSteps : List String := []
  streamedContent : String := ""
  streamedCitations : List CitationCheck := []
deriving DecidableEq, Repr

/-- JS truthiness of `data?.chunk` (present and non-empty). -/
def chunkTruthy (d : Option EventData) : Bool := ((d.bind (·.chunk)).getD "") ≠ ""

/-- The chunk string read in the `answer_chunk` branch. -/
def chunkVal (d : Option EventData) : String := (d.bind (·.chunk)).getD ""

/-- JS truthiness of `data?.message`. -/
def msgTruthy (d : Option EventData) : Bool := ((d.bind (·.message)).getD "") ≠ ""

/-- The message string read in the `web_search_progress` branch. -/
def msgVal (d : Option EventData) : String := (d.bind (·.message)).getD ""

/-- `data?.status`. -/
def dataStatus (d : Option EventData) : Option String := d.bind (·.status)

/-- JS truthiness of `data?.skipped`. -/
def dataSkipped (d : Option EventData) : Bool := (d.map (·.skipped)).getD false

/-- The `CitationCheck` built in the `citation_verified` branch from the
event's data fields. -/
def extractCitation (d : EventData) : CitationCheck :=
  ⟨d.citation_id, d.claim, d.confidence, d.is_valid, d.explanation⟩

/-- One iteration of the `PIPELINE_STEPS.forEach` marking loop: the current
event's step goes `active`; a step already in `completedSteps` is left alone;
a step at a strictly earlier ordinal is marked `skipped` or `completed`
(depending on the current event's `data?.skipped`) and recorded in
`completedSteps`. -/
def markStep (ev : ProgressEvent) (acc : AppState × SubmitCtx) (sname : String) :
    AppState × SubmitCtx :=
  if sname = ev.step then
    (appReducer acc.1 (.updatePipelineStep sname .active ev.data), acc.2)
  else if sname ∈ acc.2.completedSteps then acc
  else if stepIdx sname < stepIdx ev.step then
    (appReducer acc.1 (.updatePipelineStep sname
        (if dataSkipped ev.data then .skipped else .completed) none),
     { acc.2 with completedSteps := acc.2.completedSteps.insert sname })
  else acc

/-- The whole `PIPELINE_STEPS.forEach` loop. -/
def forEachMark (ev : ProgressEvent) (p : AppState × SubmitCtx) : AppState × SubmitCtx :=
  PIPELINE_STEPS.foldl (markStep ev) p

/-- The `web_search`-complete clearing of the transient progress string (this
branch does not return early in the source). -/
def webClear (p : AppState × SubmitCtx) (ev : ProgressEvent) : AppState × SubmitCtx :=
  if ev.step = "web_search" ∧ dataStatus ev.data = some "complete" then
    (appReducer p.1 (.setWebSearchProgress none), p.2)
  else p

/-- The final own-terminal-status marking: when the event carries data whose
status is not "starting", the event's step is recorded in `completedSteps` and
its displayed status becomes `failed` (explicit `success: false`), `skipped`
(skipped flag), or `completed`. -/
def terminalMark (p : AppState × SubmitCtx) (ev : ProgressEvent) : AppState × SubmitCtx :=
  match ev.data with
  | some d =>
      if d.status ≠ some "starting" then
        (appReducer p.1 (.updatePipelineStep ev.step
            (if d.success = some false then .failed
             else if d.skipped then .skipped else .completed) (some d)),
         { p.2 with completedSteps := p.2.completedSteps.insert ev.step })
      else p
  | none => p

/-- The tail of the progress callback past the four early returns. -/
def canonicalMark (p : AppState × SubmitCtx) (ev : ProgressEvent) :
    AppState × SubmitCtx :=
  terminalMark (forEachMark ev (webClear p ev)) ev

/-- One invocation of the progress-event callback in `submitQuery`: the four
early-return special steps, then `canonicalMark`. -/
def handleProgressEvent (p : AppState × SubmitCtx) (ev : ProgressEvent) :
    AppState × SubmitCtx :=
  if ev.step = "answer_chunk" ∧ chunkTruthy ev.data then
    (appReducer p.1 (.appendStreamingChunk (chunkVal ev.data)),
     { p.2 with streamedContent := p.2.streamedContent ++ chunkVal ev.data })
  else if ev.step = "citation_verified" ∧ ev.data.isSome then
    (appReducer p.1 (.addStreamingCitation (extractCitation (ev.data.getD default))),
     { p.2 with
        streamedCitations := p.2.streamedCitations ++ [extractCitation (ev.data.getD default)] })
  else if ev.step = "answer_complete" then p
  else if ev.step = "web_search_progress" ∧ msgTruthy ev.data then
    (appReducer p.1 (.setWebSearchProgress (some (msgVal ev.data))), p.2)
  else canonicalMark p ev

/-- Sequential processing of a list of progress events (the stream delivers
one parsed event at a time). -/
def processEvents (p : AppState × SubmitCtx) (evs : List ProgressEvent) :
    AppState × SubmitCtx :=
  evs.foldl handleProgressEvent p

/-- The fresh pipeline list dispatched at the start of `submitQuery`. -/
def initialPipelineProgress : List PipelineStepInfo :=
  PIPELINE_STEPS.map (fun n => ⟨n, .pending, none⟩)

/-- App state and callback locals right after `submitQuery` has dispatched
`SET_PIPELINE_PROGRESS` with the fresh all-pending list, i.e. the point at
which the event stream is opened. -/
def submitInit (st : AppState) : AppState × SubmitCtx :=
  (appReducer st (.setPipelineProgress (some initialPipelineProgress)), {})

/-- The displayed status of a named step. -/
def statusOf (st : AppState) (n : String) : Option StepStatus :=
  st.pipelineProgress.bind (fun l => (l.find? (fun s => s.name = n)).map (·.status))

/-- An event whose data is absent or still "starting" (it re-activates its
step without marking a terminal status). -/
def unsettledData (d : Option EventData) : Bool :=
  match d with
  | none => true
  | some dd => dd.status = some "starting"

/-- The trace condition of the amended C1: along the processing of the list,
no event with absent data or data status "starting" arrives for a step already
recorded in `completedSteps`. -/
def settledTrace : AppState × SubmitCtx → List ProgressEvent → Bool
  | _, [] => true
  | p, ev :: rest =>
      (!(unsettledData ev.data) || !(p.2.completedSteps.contains ev.step)) &&
        settledTrace (handleProgressEvent p ev) rest

set_option maxRecDepth 8192 in
/-- Counterexample to C1 as stated: process, from a fresh submission, an event
for `retrieval` (data status "done"), then a second `retrieval` event with data
status "starting", then an event for `generation`. After the `generation`
event (ordinal 7) has been processed, the step `retrieval` at strictly earlier
ordinal 5 has status `active` — not a terminal status. The "starting"
re-activation of an already-resolved step is never repaired by forward
inference because `retrieval` stays in the interpreter's completed-set. -/
theorem c1_counterexample :
    stepIdx "retrieval" < stepIdx "generation" ∧
    statusOf (processEvents (submitInit {})
        [⟨"retrieval", some { status := some "done" }⟩,
         ⟨"retrieval", some { status := some "starting" }⟩,
         ⟨"generation", some { status := some "done" }⟩]).1 "retrieval"
      = some .active := by
  constructor
  · decide
  · rfl

set_option maxRecDepth 8192 in
/-- Counterexample to C7 as stated: a single event for `retrieval` whose data
carries `skipped: true` marks the earlier step `rewriting` as `skipped`, even
though `rewriting`'s own most-recent event (it received none) never carried a
skipped flag; per the claim it should have been marked `completed`. The code
uses the current event's `data?.skipped`, not the earlier step's own events. -/
theorem c7_counterexample :
    stepIdx "rewriting" < stepIdx "retrieval" ∧
    statusOf (processEvents (submitInit {})
        [⟨"retrieval", some { status := some "done", skipped := true }⟩]).1 "rewriting"
      = some .skipped ∧
    statusOf (processEvents (submitInit {})
        [⟨"retrieval", some { status := some "done", skipped := true }⟩]).1 "rewriting"
      ≠ some .completed := by
  refine ⟨by decide, rfl, by decide⟩

/-! ### Reducer-level lemmas for the interpreter proofs -/

/-- The update function applied to the step list by `UPDATE_PIPELINE_STEP`. -/
def updStep (n : String) (stat : StepStatus) (d : Option EventData) :
    PipelineStepInfo → PipelineStepInfo :=
  fun s => if s.name = n then { s with status := stat, data := d } else s

theorem appReducer_updateStep_eq (st : AppState) (n : String) (stat : StepStatus)
    (d : Option EventData) :
    appReducer st (.updatePipelineStep n stat d)
      = match st.pipelineProgress with
        | none => st
        | some l => { st with pipelineProgress := some (l.map (updStep n stat d)) } := by
  unfold appReducer updStep
  cases st.pipelineProgress <;> rfl

theorem updStep_name (n : String) (stat : StepStatus) (d : Option EventData)
    (s : PipelineStepInfo) : (updStep n stat d s).name = s.name := by
  unfold updStep
  by_cases h : s.name = n <;> simp [h]

theorem updateStep_streamingState (st : AppState) (n : String) (stat : StepStatus)
    (d : Option EventData) :
    (appReducer st (.updatePipelineStep n stat d)).streamingState = st.streamingState := by
  rw [appReducer_updateStep_eq]
  cases st.pipelineProgress <;> rfl

theorem updateStep_conversations (st : AppState) (n : String) (stat : StepStatus)
    (d : Option EventData) :
    (appReducer st (.updatePipelineStep n stat d)).conversations = st.conversations := by
  rw [appReducer_updateStep_eq]
  cases st.pipelineProgress <;> rfl

theorem setWeb_statusOf (st : AppState) (m : Option String) (n : String) :
    statusOf (appReducer st (.setWebSearchProgress m)) n = statusOf st n := rfl

theorem appendChunk_pipelineProgress (st : AppState) (c : String) :
    (appReducer st (.appendStreamingChunk c)).pipelineProgress = st.pipelineProgress := by
  unfold appReducer
  cases st.streamingState <;> rfl

theorem addCitation_pipelineProgress (st : AppState) (c : CitationCheck) :
    (appReducer st (.addStreamingCitation c)).pipelineProgress = st.pipelineProgress := by
  unfold appReducer
  cases st.streamingState <;> rfl

theorem statusOf_congr_progress {st st' : AppState}
    (h : st'.pipelineProgress = st.pipelineProgress) (n : String) :
    statusOf st' n = statusOf st n := by
  unfold statusOf
  rw [h]

theorem updateStep_progress (st : AppState) (n : String) (stat : StepStatus)
    (d : Option EventData) :
    (appReducer st (.updatePipelineStep n stat d)).pipelineProgress
      = st.pipelineProgress.map (fun l => l.map (updStep n stat d)) := by
  obtain ⟨c, pp, ss, w, ab, o, mz⟩ := st
  unfold appReducer updStep
  cases pp <;> rfl

/-- The displayed status after `UPDATE_PIPELINE_STEP`: the named step (when
present) takes the new status, every other step is untouched. -/
theorem statusOf_updateStep (st : AppState) (n : String) (stat : StepStatus)
    (d : Option EventData) (m : String) :
    statusOf (appReducer st (.updatePipelineStep n stat d)) m
      = if m = n then (statusOf st m).map (fun _ => stat) else statusOf st m := by
  unfold statusOf
  rw [updateStep_progress]
  cases hpp : st.pipelineProgress with
  | none => cases h : decide (m = n) <;> simp_all
  | some l =>
      simp only [Option.map_some', Option.some_bind]
      rw [find?_map_of_key (fun s => s.name) (updStep n stat d) (updStep_name n stat d) l m]
      cases hx : l.find? (fun s => decide (s.name = m)) with
      | none => cases h : decide (m = n) <;> simp_all
      | some x =>
          have hxk := List.find?_some hx
          simp only [decide_eq_true_eq] at hxk
          by_cases hmn : m = n
          · subst hmn
            simp [updStep, hxk]
          · have hxn : ¬ (x.name = n) := by rw [hxk]; exact hmn
            simp [updStep, hxn, hmn]

theorem statusOf_updateStep_other (st : AppState) {n m : String} (stat : StepStatus)
    (d : Option EventData) (hne : n ≠ m) :
    statusOf (appReducer st (.updatePipelineStep m stat d)) n = statusOf st n := by
  rw [statusOf_updateStep, if_neg hne]

theorem statusOf_updateStep_self (st : AppState) {m : String} (stat : StepStatus)
    (d : Option EventData) (hsome : (statusOf st m).isSome) :
    statusOf (appReducer st (.updatePipelineStep m stat d)) m = some stat := by
  rw [statusOf_updateStep, if_pos rfl]
  obtain ⟨y, hy⟩ := Option.isSome_iff_exists.mp hsome
  rw [hy]
  rfl

/-- The pipeline list is present and its names are exactly the canonical step
list — true after submission initialization and preserved by the interpreter. -/
def goodProgress (st : AppState) : Prop :=
  ∃ l, st.pipelineProgress = some l ∧ l.map (fun s => s.name) = PIPELINE_STEPS

theorem goodProgress_updateStep (st : AppState) (n : String) (stat : StepStatus)
    (d : Option EventData) (hg : goodProgress st) :
    goodProgress (appReducer st (.updatePipelineStep n stat d)) := by
  obtain ⟨l, hpp, hnames⟩ := hg
  refine ⟨l.map (updStep n stat d), ?_, ?_⟩
  · rw [appReducer_updateStep_eq, hpp]
  · rw [List.map_map, ← hnames]
    congr 1
    funext a
    exact updStep_name n stat d a

theorem statusOf_isSome_of_good {st : AppState} (hg : goodProgress st) {n : String}
    (hn : n ∈ PIPELINE_STEPS) : (statusOf st n).isSome := by
  obtain ⟨l, hpp, hnames⟩ := hg
  unfold statusOf
  rw [hpp]
  simp only [Option.some_bind]
  have hfind : (l.find? (fun s => decide (s.name = n))).isSome := by
    rw [List.find?_isSome]
    have hm : n ∈ l.map (fun s => s.name) := by rw [hnames]; exact hn
    obtain ⟨x, hx, hxn⟩ := List.mem_map.mp hm
    exact ⟨x, hx, by simp [hxn]⟩
  obtain ⟨y, hy⟩ := Option.isSome_iff_exists.mp hfind
  simp [hy]

theorem statusOf_updateStep_isSome (st : AppState) (n : String) (stat : StepStatus)
    (d : Option EventData) (m : String) :
    (statusOf (appReducer st (.updatePipelineStep n stat d)) m).isSome
      = (statusOf st m).isSome := by
  rw [statusOf_updateStep]
  by_cases h : m = n
  · rw [if_pos h]
    cases statusOf st m <;> rfl
  · rw [if_neg h]

/-! ### The forEach marking loop: characterization lemmas -/

theorem markStep_fields (ev : ProgressEvent) (p : AppState × SubmitCtx) (c : String) :
    (markStep ev p c).1.streamingState = p.1.streamingState ∧
    (markStep ev p c).1.conversations = p.1.conversations ∧
    (markStep ev p c).2.streamedContent = p.2.streamedContent ∧
    (markStep ev p c).2.streamedCitations = p.2.streamedCitations := by
  unfold markStep
  split
  · exact ⟨updateStep_streamingState _ _ _ _, updateStep_conversations _ _ _ _, rfl, rfl⟩
  · split
    · exact ⟨rfl, rfl, rfl, rfl⟩
    · split
      · exact ⟨updateStep_streamingState _ _ _ _, updateStep_conversations _ _ _ _, rfl, rfl⟩
      · exact ⟨rfl, rfl, rfl, rfl⟩

theorem markStep_good (ev : ProgressEvent) (p : AppState × SubmitCtx) (c : String)
    (hg : goodProgress p.1) : goodProgress (markStep ev p c).1 := by
  unfold markStep
  split
  · exact goodProgress_updateStep _ _ _ _ hg
  · split
    · exact hg
    · split
      · exact goodProgress_updateStep _ _ _ _ hg
      · exact hg

theorem markStep_other (ev : ProgressEvent) (p : AppState × SubmitCtx) (c t : String)
    (hct : c ≠ t) :
    statusOf (markStep ev p c).1 t = statusOf p.1 t ∧
    (t ∈ (markStep ev p c).2.completedSteps ↔ t ∈ p.2.completedSteps) := by
  unfold markStep
  split
  · exact ⟨statusOf_updateStep_other p.1 .active ev.data (fun h => hct h.symm), Iff.rfl⟩
  · split
    · exact ⟨rfl, Iff.rfl⟩
    · split
      · refine ⟨statusOf_updateStep_other p.1 _ none (fun h => hct h.symm), ?_⟩
        simp only [List.mem_insert_iff]
        exact ⟨fun h => h.elim (fun h' => absurd h'.symm hct) id, Or.inr⟩
      · exact ⟨rfl, Iff.rfl⟩

theorem markStep_isSome (ev : ProgressEvent) (p : AppState × SubmitCtx) (c t : String) :
    (statusOf (markStep ev p c).1 t).isSome = (statusOf p.1 t).isSome := by
  unfold markStep
  split
  · exact statusOf_updateStep_isSome _ _ _ _ _
  · split
    · rfl
    · split
      · exact statusOf_updateStep_isSome _ _ _ _ _
      · rfl

theorem markStep_comp_new (ev : ProgressEvent) (p : AppState × SubmitCtx) (c t : String)
    (ht : t ∈ (markStep ev p c).2.completedSteps) :
    t ∈ p.2.completedSteps ∨
      (t = c ∧ t ≠ ev.step ∧ stepIdx t < stepIdx ev.step) := by
  revert ht
  unfold markStep
  split
  · exact fun h => Or.inl h
  · split
    · exact fun h => Or.inl h
    · next h1 h2 =>
        split
        · next h3 =>
            intro ht
            rcases List.mem_insert_iff.mp ht with h | h
            · subst h; exact Or.inr ⟨rfl, h1, h3⟩
            · exact Or.inl h
        · exact fun h => Or.inl h

theorem markFold_not_mem (ev : ProgressEvent) (L : List String)
    (p : AppState × SubmitCtx) (t : String) (ht : t ∉ L) :
    statusOf (L.foldl (markStep ev) p).1 t = statusOf p.1 t ∧
    (t ∈ (L.foldl (markStep ev) p).2.completedSteps ↔ t ∈ p.2.completedSteps) := by
  induction L generalizing p with
  | nil => exact ⟨rfl, Iff.rfl⟩
  | cons c rest ih =>
      have hct : c ≠ t := fun h => ht (h ▸ List.mem_cons_self c rest)
      have ht' : t ∉ rest := fun h => ht (List.mem_cons_of_mem _ h)
      have hstep := markStep_other ev p c t hct
      have hrest := ih (markStep ev p c) ht'
      simp only [List.foldl_cons]
      exact ⟨hrest.1.trans hstep.1, hrest.2.trans hstep.2⟩

theorem markFold_fields (ev : ProgressEvent) (L : List String) (p : AppState × SubmitCtx) :
    (L.foldl (markStep ev) p).1.streamingState = p.1.streamingState ∧
    (L.foldl (markStep ev) p).1.conversations = p.1.conversations ∧
    (L.foldl (markStep ev) p).2.streamedContent = p.2.streamedContent ∧
    (L.foldl (markStep ev) p).2.streamedCitations = p.2.streamedCitations := by
  induction L generalizing p with
  | nil => exact ⟨rfl, rfl, rfl, rfl⟩
  | cons c rest ih =>
      have hstep := markStep_fields ev p c
      have hrest := ih (markStep ev p c)
      simp only [List.foldl_cons]
      exact ⟨hrest.1.trans hstep.1, hrest.2.1.trans hstep.2.1,
        hrest.2.2.1.trans hstep.2.2.1, hrest.2.2.2.trans hstep.2.2.2⟩

theorem markFold_good (ev : ProgressEvent) (L : List String) (p : AppState × SubmitCtx)
    (hg : goodProgress p.1) : goodProgress (L.foldl (markStep ev) p).1 := by
  induction L generalizing p with
  | nil => exact hg
  | cons c rest ih =>
      simp only [List.foldl_cons]
      exact ih (markStep ev p c) (markStep_good ev p c hg)

theorem markFold_comp_new (ev : ProgressEvent) (L : List String)
    (p : AppState × SubmitCtx) (t : String)
    (ht : t ∈ (L.foldl (markStep ev) p).2.completedSteps) :
    t ∈ p.2.completedSteps ∨
      (t ∈ L ∧ t ≠ ev.step ∧ stepIdx t < stepIdx ev.step) := by
  induction L generalizing p with
  | nil => exact Or.inl ht
  | cons c rest ih =>
      simp only [List.foldl_cons] at ht
      rcases ih (markStep ev p c) ht with h | h
      · rcases markStep_comp_new ev p c t h with h' | h'
        · exact Or.inl h'
        · exact Or.inr ⟨h'.1 ▸ List.mem_cons_self c rest, h'.2.1, h'.2.2⟩
      · exact Or.inr ⟨List.mem_cons_of_mem _ h.1, h.2.1, h.2.2⟩

theorem markFold_mem (ev : ProgressEvent) (L : List String) (hnd : L.Nodup)
    (p : AppState × SubmitCtx) (t : String) (hsome : (statusOf p.1 t).isSome)
    (ht : t ∈ L) :
    (t = ev.step → statusOf (L.foldl (markStep ev) p).1 t = some .active) ∧
    (t ≠ ev.step → t ∈ p.2.completedSteps →
      statusOf (L.foldl (markStep ev) p).1 t = statusOf p.1 t ∧
      t ∈ (L.foldl (markStep ev) p).2.completedSteps) ∧
    (t ≠ ev.step → t ∉ p.2.completedSteps → stepIdx t < stepIdx ev.step →
      statusOf (L.foldl (markStep ev) p).1 t
        = some (if dataSkipped ev.data then .skipped else .completed) ∧
      t ∈ (L.foldl (markStep ev) p).2.completedSteps) ∧
    (t ≠ ev.step → t ∉ p.2.completedSteps → ¬ stepIdx t < stepIdx ev.step →
      statusOf (L.foldl (markStep ev) p).1 t = statusOf p.1 t ∧
      t ∉ (L.foldl (markStep ev) p).2.completedSteps) := by
  induction L generalizing p with
  | nil => simp at ht
  | cons c rest ih =>
      simp only [List.foldl_cons]
      rcases List.mem_cons.mp ht with hteq | htrest
      · subst hteq
        have htnr : t ∉ rest := (List.nodup_cons.mp hnd).1
        have hnm := markFold_not_mem ev rest (markStep ev p t) t htnr
        refine ⟨?_, ?_, ?_, ?_⟩
        · intro hts
          rw [hnm.1]
          unfold markStep
          rw [if_pos hts]
          exact statusOf_updateStep_self p.1 .active ev.data hsome
        · intro hts hcomp
          have hstep : markStep ev p t = p := by
            unfold markStep
            rw [if_neg hts, if_pos hcomp]
          rw [hstep] at hnm ⊢
          exact ⟨hnm.1, hnm.2.mpr hcomp⟩
        · intro hts hcomp hidx
          have hstep : markStep ev p t
              = (appReducer p.1 (.updatePipelineStep t
                    (if dataSkipped ev.data then .skipped else .completed) none),
                 { p.2 with completedSteps := p.2.completedSteps.insert t }) := by
            unfold markStep
            rw [if_neg hts, if_neg hcomp, if_pos hidx]
          rw [hstep] at hnm ⊢
          refine ⟨?_, ?_⟩
          · rw [hnm.1]
            exact statusOf_updateStep_self p.1 _ none hsome
          · exact hnm.2.mpr (List.mem_insert_self t _)
        · intro hts hcomp hidx
          have hstep : markStep ev p t = p := by
            unfold markStep
            rw [if_neg hts, if_neg hcomp, if_neg hidx]
          rw [hstep] at hnm ⊢
          exact ⟨hnm.1, fun h => hcomp (hnm.2.mp h)⟩
      · have hct : c ≠ t := fun h => (List.nodup_cons.mp hnd).1 (h ▸ htrest)
        have hstep := markStep_other ev p c t hct
        have hsome' : (statusOf (markStep ev p c).1 t).isSome := by
          rw [hstep.1]; exact hsome
        have hrest := ih (List.nodup_cons.mp hnd).2 (markStep ev p c) hsome' htrest
        refine ⟨?_, ?_, ?_, ?_⟩
        · intro hts
          rw [(hrest.1 hts)]
        · intro hts hcomp
          have h2 := hrest.2.1 hts (hstep.2.mpr hcomp)
          exact ⟨h2.1.trans hstep.1, h2.2⟩
        · intro hts hcomp hidx
          exact hrest.2.2.1 hts (fun h => hcomp (hstep.2.mp h)) hidx
        · intro hts hcomp hidx
          have h4 := hrest.2.2.2 hts (fun h => hcomp (hstep.2.mp h)) hidx
          exact ⟨h4.1.trans hstep.1, h4.2⟩

/-! ### Invariants of the interpreter -/

/-- A terminal step status. -/
def terminalStat (s : StepStatus) : Prop := s = .completed ∨ s = .skipped ∨ s = .failed

/-- Every canonical step recorded in the completed-set shows a terminal status. -/
def StepsInv (p : AppState × SubmitCtx) : Prop :=
  ∀ s, s ∈ p.2.completedSteps → s ∈ PIPELINE_STEPS →
    ∃ stat, statusOf p.1 s = some stat ∧ terminalStat stat

theorem pipeline_steps_nodup : PIPELINE_STEPS.Nodup := by decide

theorem canonical_not_special {n : String} (hn : n ∈ PIPELINE_STEPS) :
    n ≠ "answer_chunk" ∧ n ≠ "citation_verified" ∧ n ≠ "answer_complete" ∧
      n ≠ "web_search_progress" := by
  fin_cases hn <;> refine ⟨by decide, by decide, by decide, by decide⟩

theorem ne_of_stepIdx_lt {s k : String} (h : stepIdx s < stepIdx k) : s ≠ k :=
  fun he => absurd h (by rw [he]; exact lt_irrefl _)

/-- On a canonical event, the four early-return guards are all false. -/
theorem handle_canonical_of_mem (p : AppState × SubmitCtx) (ev : ProgressEvent)
    (hc : ev.step ∈ PIPELINE_STEPS) :
    handleProgressEvent p ev = canonicalMark p ev := by
  obtain ⟨g1, g2, g3, g4⟩ := canonical_not_special hc
  unfold handleProgressEvent
  rw [if_neg (fun h => g1 h.1), if_neg (fun h => g2 h.1), if_neg g3,
    if_neg (fun h => g4 h.1)]

theorem webClear_statusOf (p : AppState × SubmitCtx) (ev : ProgressEvent) (n : String) :
    statusOf (webClear p ev).1 n = statusOf p.1 n := by
  unfold webClear
  split
  · exact setWeb_statusOf p.1 none n
  · rfl

theorem webClear_ctx (p : AppState × SubmitCtx) (ev : ProgressEvent) :
    (webClear p ev).2 = p.2 := by
  unfold webClear
  split <;> rfl

theorem webClear_good (p : AppState × SubmitCtx) (ev : ProgressEvent)
    (hg : goodProgress p.1) : goodProgress (webClear p ev).1 := by
  unfold webClear
  split
  · exact hg
  · exact hg

theorem webClear_fields (p : AppState × SubmitCtx) (ev : ProgressEvent) :
    (webClear p ev).1.streamingState = p.1.streamingState ∧
    (webClear p ev).1.conversations = p.1.conversations := by
  unfold webClear
  split <;> exact ⟨rfl, rfl⟩

theorem terminalMark_settled_eq (p : AppState × SubmitCtx) (ev : ProgressEvent)
    (d : EventData) (hd : ev.data = some d) (hds : d.status ≠ some "starting") :
    terminalMark p ev
      = (appReducer p.1 (.updatePipelineStep ev.step
            (if d.success = some false then .failed
             else if d.skipped then .skipped else .completed) (some d)),
         { p.2 with completedSteps := p.2.completedSteps.insert ev.step }) := by
  unfold terminalMark
  rw [hd]
  exact if_pos hds

theorem terminalMark_starting_eq (p : AppState × SubmitCtx) (ev : ProgressEvent)
    (d : EventData) (hd : ev.data = some d) (hds : d.status = some "starting") :
    terminalMark p ev = p := by
  unfold terminalMark
  rw [hd]
  exact if_neg (by simpa using hds)

theorem terminalMark_none_eq (p : AppState × SubmitCtx) (ev : ProgressEvent)
    (hd : ev.data = none) : terminalMark p ev = p := by
  unfold terminalMark
  rw [hd]

theorem terminalMark_other (p : AppState × SubmitCtx) (ev : ProgressEvent) (t : String)
    (ht : t ≠ ev.step) :
    statusOf (terminalMark p ev).1 t = statusOf p.1 t ∧
    (t ∈ (terminalMark p ev).2.completedSteps ↔ t ∈ p.2.completedSteps) := by
  cases hd : ev.data with
  | none => rw [terminalMark_none_eq p ev hd]; exact ⟨rfl, Iff.rfl⟩
  | some d =>
      by_cases hds : d.status = some "starting"
      · rw [terminalMark_starting_eq p ev d hd hds]
        exact ⟨rfl, Iff.rfl⟩
      · rw [terminalMark_settled_eq p ev d hd hds]
        refine ⟨statusOf_updateStep_other p.1 _ _ ht, ?_⟩
        simp only [List.mem_insert_iff]
        exact ⟨fun h => h.elim (fun h' => absurd h' ht) id, Or.inr⟩

theorem terminalMark_good (p : AppState × SubmitCtx) (ev : ProgressEvent)
    (hg : goodProgress p.1) : goodProgress (terminalMark p ev).1 := by
  cases hd : ev.data with
  | none => rw [terminalMark_none_eq p ev hd]; exact hg
  | some d =>
      by_cases hds : d.status = some "starting"
      · rw [terminalMark_starting_eq p ev d hd hds]; exact hg
      · rw [terminalMark_settled_eq p ev d hd hds]
        exact goodProgress_updateStep _ _ _ _ hg

theorem terminalMark_comp_new (p : AppState × SubmitCtx) (ev : ProgressEvent) (t : String)
    (ht : t ∈ (terminalMark p ev).2.completedSteps) :
    t ∈ p.2.completedSteps ∨ t = ev.step := by
  revert ht
  cases hd : ev.data with
  | none => rw [terminalMark_none_eq p ev hd]; exact fun h => Or.inl h
  | some d =>
      by_cases hds : d.status = some "starting"
      · rw [terminalMark_starting_eq p ev d hd hds]; exact fun h => Or.inl h
      · rw [terminalMark_settled_eq p ev d hd hds]
        intro ht
        rcases List.mem_insert_iff.mp ht with h | h
        · exact Or.inr h
        · exact Or.inl h

/-- When the event's data is settled, `terminalMark` gives the event's own
step a terminal status (and its status is one of the three terminal ones). -/
theorem terminalMark_self (p : AppState × SubmitCtx) (ev : ProgressEvent) (d : EventData)
    (hd : ev.data = some d) (hsettled : d.status ≠ some "starting")
    (hsome : (statusOf p.1 ev.step).isSome) :
    ∃ stat, statusOf (terminalMark p ev).1 ev.step = some stat ∧ terminalStat stat ∧
      ev.step ∈ (terminalMark p ev).2.completedSteps := by
  rw [terminalMark_settled_eq p ev d hd hsettled]
  refine ⟨_, statusOf_updateStep_self p.1 _ _ hsome, ?_, List.mem_insert_self _ _⟩
  by_cases h1 : d.success = some false
  · rw [if_pos h1]; exact Or.inr (Or.inr rfl)
  · rw [if_neg h1]
    by_cases h2 : d.skipped
    · rw [if_pos h2]; exact Or.inr (Or.inl rfl)
    · rw [if_neg h2]; exact Or.inl rfl

/-- When the event's data is unsettled, `terminalMark` is the identity. -/
theorem terminalMark_unsettled (p : AppState × SubmitCtx) (ev : ProgressEvent)
    (hu : unsettledData ev.data = true) : terminalMark p ev = p := by
  cases hd : ev.data with
  | none => exact terminalMark_none_eq p ev hd
  | some d =>
      unfold unsettledData at hu
      rw [hd] at hu
      simp only [decide_eq_true_eq] at hu
      exact terminalMark_starting_eq p ev d hd hu

/-- After the marking loop, a canonical step other than the event's own that is
in the completed-set shows a terminal status, provided the invariant held
before the loop. -/
theorem markFold_terminal (p1 : AppState × SubmitCtx) (ev : ProgressEvent)
    (hg1 : goodProgress p1.1) (hinv1 : StepsInv p1) (s : String)
    (hsL : s ∈ PIPELINE_STEPS) (hsne : s ≠ ev.step)
    (hs2 : s ∈ (forEachMark ev p1).2.completedSteps) :
    ∃ stat, statusOf (forEachMark ev p1).1 s = some stat ∧ terminalStat stat := by
  have hsome := statusOf_isSome_of_good hg1 hsL
  have hmem := markFold_mem ev PIPELINE_STEPS pipeline_steps_nodup p1 s hsome hsL
  by_cases hc : s ∈ p1.2.completedSteps
  · obtain ⟨stat, hst, hterm⟩ := hinv1 s hc hsL
    have h2 := hmem.2.1 hsne hc
    exact ⟨stat, h2.1.trans hst, hterm⟩
  · rcases markFold_comp_new ev PIPELINE_STEPS p1 s hs2 with h | h
    · exact absurd h hc
    · have h3 := hmem.2.2.1 hsne hc h.2.2
      refine ⟨_, h3.1, ?_⟩
      by_cases hsk : dataSkipped ev.data
      · rw [if_pos hsk]; exact Or.inr (Or.inl rfl)
      · rw [if_neg hsk]; exact Or.inl rfl

/-- `canonicalMark` preserves the interpreter invariants, given the
settled-trace condition for this event. -/
theorem canonicalMark_inv (p : AppState × SubmitCtx) (ev : ProgressEvent)
    (hg : goodProgress p.1) (hinv : StepsInv p)
    (hok : unsettledData ev.data = true → ev.step ∉ p.2.completedSteps) :
    goodProgress (canonicalMark p ev).1 ∧ StepsInv (canonicalMark p ev) := by
  have hg1 : goodProgress (webClear p ev).1 := webClear_good p ev hg
  have hinv1 : StepsInv (webClear p ev) := by
    intro s hs hsL
    rw [webClear_ctx] at hs
    obtain ⟨stat, hst, hterm⟩ := hinv s hs hsL
    exact ⟨stat, (webClear_statusOf p ev s).trans hst, hterm⟩
  have hg2 : goodProgress (forEachMark ev (webClear p ev)).1 :=
    markFold_good ev PIPELINE_STEPS (webClear p ev) hg1
  constructor
  · exact terminalMark_good _ ev hg2
  · intro s hs hsL
    unfold canonicalMark at hs ⊢
    rcases terminalMark_comp_new _ ev s hs with hs2 | hse
    · by_cases hsne : s = ev.step
      · subst hsne
        -- the event's own step is in the completed-set after the loop:
        -- it cannot have been newly added by the loop, so it was there before,
        -- so the event's data is settled, so terminalMark resolves it.
        have hbefore : ev.step ∈ (webClear p ev).2.completedSteps := by
          rcases markFold_comp_new ev PIPELINE_STEPS (webClear p ev) ev.step hs2 with h | h
          · exact h
          · exact absurd rfl h.2.1
        rw [webClear_ctx] at hbefore
        have hsettled : unsettledData ev.data = false := by
          cases hu : unsettledData ev.data
          · rfl
          · exact absurd hbefore (hok hu)
        cases hd : ev.data with
        | none => rw [hd] at hsettled; simp [unsettledData] at hsettled
        | some d =>
            have hds : d.status ≠ some "starting" := by
              rw [hd] at hsettled
              simp only [unsettledData, decide_eq_false_iff_not] at hsettled
              exact hsettled
            obtain ⟨stat, hst, hterm, _⟩ := terminalMark_self _ ev d hd hds
              (statusOf_isSome_of_good hg2 hsL)
            exact ⟨stat, hst, hterm⟩
      · obtain ⟨stat, hst, hterm⟩ := markFold_terminal (webClear p ev) ev hg1 hinv1 s hsL hsne hs2
        have hoth := terminalMark_other (forEachMark ev (webClear p ev)) ev s hsne
        exact ⟨stat, hoth.1.trans hst, hterm⟩
    · subst hse
      -- s is the event's own step, newly added by terminalMark: data settled.
      cases hd : ev.data with
      | none =>
          -- terminalMark is the identity, so s was in the loop's completed-set
          have hid : terminalMark (forEachMark ev (webClear p ev)) ev
              = forEachMark ev (webClear p ev) :=
            terminalMark_unsettled _ ev (by simp [unsettledData, hd])
          rw [hid] at hs
          have hbefore : ev.step ∈ (webClear p ev).2.completedSteps := by
            rcases markFold_comp_new ev PIPELINE_STEPS (webClear p ev) ev.step hs with h | h
            · exact h
            · exact absurd rfl h.2.1
          rw [webClear_ctx] at hbefore
          exact absurd hbefore (hok (by simp [unsettledData, hd]))
      | some d =>
          by_cases hds : d.status ≠ some "starting"
          · obtain ⟨stat, hst, hterm, _⟩ := terminalMark_self _ ev d hd hds
              (statusOf_isSome_of_good hg2 hsL)
            exact ⟨stat, hst, hterm⟩
          · have hid : terminalMark (forEachMark ev (webClear p ev)) ev
                = forEachMark ev (webClear p ev) := by
              apply terminalMark_unsettled
              simp only [unsettledData, hd]
              simp only [not_not] at hds
              simp [hds]
            rw [hid] at hs
            have hbefore : ev.step ∈ (webClear p ev).2.completedSteps := by
              rcases markFold_comp_new ev PIPELINE_STEPS (webClear p ev) ev.step hs with h | h
              · exact h
              · exact absurd rfl h.2.1
            rw [webClear_ctx] at hbefore
            refine absurd hbefore (hok ?_)
            simp only [unsettledData, hd]
            simp only [not_not] at hds
            simp [hds]

theorem goodProgress_congr {st st' : AppState} (h : st'.pipelineProgress = st.pipelineProgress)
    (hg : goodProgress st) : goodProgress st' := by
  obtain ⟨l, hpp, hn⟩ := hg
  exact ⟨l, h.trans hpp, hn⟩

theorem webClear_inv (p : AppState × SubmitCtx) (ev : ProgressEvent)
    (hinv : StepsInv p) : StepsInv (webClear p ev) := by
  intro s hs hsL
  rw [webClear_ctx] at hs
  obtain ⟨stat, hst, hterm⟩ := hinv s hs hsL
  exact ⟨stat, (webClear_statusOf p ev s).trans hst, hterm⟩

/-- `handleProgressEvent` preserves the interpreter invariants, given the
settled-trace condition for this event. -/
theorem handle_inv (p : AppState × SubmitCtx) (ev : ProgressEvent)
    (hg : goodProgress p.1) (hinv : StepsInv p)
    (hok : unsettledData ev.data = true → ev.step ∉ p.2.completedSteps) :
    goodProgress (handleProgressEvent p ev).1 ∧ StepsInv (handleProgressEvent p ev) := by
  unfold handleProgressEvent
  by_cases h1 : ev.step = "answer_chunk" ∧ chunkTruthy ev.data
  · rw [if_pos h1]
    refine ⟨goodProgress_congr (appendChunk_pipelineProgress p.1 _) hg, ?_⟩
    intro s hs hsL
    obtain ⟨stat, hst, hterm⟩ := hinv s hs hsL
    exact ⟨stat, (statusOf_congr_progress (appendChunk_pipelineProgress p.1 _) s).trans hst,
      hterm⟩
  · rw [if_neg h1]
    by_cases h2 : ev.step = "citation_verified" ∧ ev.data.isSome
    · rw [if_pos h2]
      refine ⟨goodProgress_congr (addCitation_pipelineProgress p.1 _) hg, ?_⟩
      intro s hs hsL
      obtain ⟨stat, hst, hterm⟩ := hinv s hs hsL
      exact ⟨stat, (statusOf_congr_progress (addCitation_pipelineProgress p.1 _) s).trans hst,
        hterm⟩
    · rw [if_neg h2]
      by_cases h3 : ev.step = "answer_complete"
      · rw [if_pos h3]
        exact ⟨hg, hinv⟩
      · rw [if_neg h3]
        by_cases h4 : ev.step = "web_search_progress" ∧ msgTruthy ev.data
        · rw [if_pos h4]
          refine ⟨goodProgress_congr rfl hg, ?_⟩
          intro s hs hsL
          obtain ⟨stat, hst, hterm⟩ := hinv s hs hsL
          exact ⟨stat, (setWeb_statusOf p.1 _ s).trans hst, hterm⟩
        · rw [if_neg h4]
          exact canonicalMark_inv p ev hg hinv hok

/-- After `canonicalMark` for an event, every step at a strictly earlier
ordinal is terminal. -/
theorem canonicalMark_post (p : AppState × SubmitCtx) (ev : ProgressEvent)
    (hg : goodProgress p.1) (hinv : StepsInv p) (s : String)
    (hs : s ∈ PIPELINE_STEPS) (hlt : stepIdx s < stepIdx ev.step) :
    ∃ stat, statusOf (canonicalMark p ev).1 s = some stat ∧ terminalStat stat := by
  have hsne : s ≠ ev.step := ne_of_stepIdx_lt hlt
  have hg1 : goodProgress (webClear p ev).1 := webClear_good p ev hg
  have hinv1 : StepsInv (webClear p ev) := webClear_inv p ev hinv
  unfold canonicalMark
  have hsome := statusOf_isSome_of_good hg1 hs
  have hmem := markFold_mem ev PIPELINE_STEPS pipeline_steps_nodup (webClear p ev) s hsome hs
  have hterm2 : ∃ stat, statusOf (forEachMark ev (webClear p ev)).1 s = some stat ∧
      terminalStat stat := by
    by_cases hc : s ∈ (webClear p ev).2.completedSteps
    · obtain ⟨stat, hst, ht⟩ := hinv1 s hc hs
      have h2 := hmem.2.1 hsne hc
      exact ⟨stat, h2.1.trans hst, ht⟩
    · have h3 := hmem.2.2.1 hsne hc hlt
      refine ⟨_, h3.1, ?_⟩
      by_cases hsk : dataSkipped ev.data
      · rw [if_pos hsk]
        exact Or.inr (Or.inl rfl)
      · rw [if_neg hsk]
        exact Or.inl rfl
  obtain ⟨stat, hst, ht⟩ := hterm2
  exact ⟨stat, (terminalMark_other _ ev s hsne).1.trans hst, ht⟩

theorem handle_post (p : AppState × SubmitCtx) (ev : ProgressEvent)
    (hg : goodProgress p.1) (hinv : StepsInv p) (hcanon : ev.step ∈ PIPELINE_STEPS)
    (s : String) (hs : s ∈ PIPELINE_STEPS) (hlt : stepIdx s < stepIdx ev.step) :
    ∃ stat, statusOf (handleProgressEvent p ev).1 s = some stat ∧ terminalStat stat := by
  rw [handle_canonical_of_mem p ev hcanon]
  exact canonicalMark_post p ev hg hinv s hs hlt

theorem processEvents_append (p : AppState × SubmitCtx) (l1 l2 : List ProgressEvent) :
    processEvents p (l1 ++ l2) = processEvents (processEvents p l1) l2 :=
  List.foldl_append handleProgressEvent p l1 l2

theorem settledTrace_append (l1 l2 : List ProgressEvent) :
    ∀ p, settledTrace p (l1 ++ l2)
      = (settledTrace p l1 && settledTrace (processEvents p l1) l2) := by
  induction l1 with
  | nil => intro p; simp [settledTrace, processEvents]
  | cons e rest ih =>
      intro p
      show ((!(unsettledData e.data) || !(p.2.completedSteps.contains e.step)) &&
          settledTrace (handleProgressEvent p e) (rest ++ l2)) = _
      rw [ih (handleProgressEvent p e)]
      rw [← Bool.and_assoc]
      rfl

theorem processEvents_inv (evs : List ProgressEvent) :
    ∀ p, goodProgress p.1 → StepsInv p → settledTrace p evs = true →
      goodProgress (processEvents p evs).1 ∧ StepsInv (processEvents p evs) := by
  induction evs with
  | nil => exact fun p hg hinv _ => ⟨hg, hinv⟩
  | cons e rest ih =>
      intro p hg hinv htr
      have htr' : ((!(unsettledData e.data) || !(p.2.completedSteps.contains e.step)) &&
          settledTrace (handleProgressEvent p e) rest) = true := htr
      rw [Bool.and_eq_true] at htr'
      have hok : unsettledData e.data = true → e.step ∉ p.2.completedSteps := by
        intro hu hmem
        have h1 := htr'.1
        rw [hu] at h1
        have hc : p.2.completedSteps.contains e.step = true := by simpa using hmem
        rw [hc] at h1
        simp at h1
      have hstep := handle_inv p e hg hinv hok
      exact ih (handleProgressEvent p e) hstep.1 hstep.2 htr'.2

theorem submitInit_good (st : AppState) : goodProgress (submitInit st).1 := by
  refine ⟨initialPipelineProgress, rfl, by decide⟩

theorem submitInit_inv (st : AppState) : StepsInv (submitInit st) := by
  intro s hs _
  simp [submitInit] at hs

/-- C1, amended: for every sequence of progress events processed from a fresh
submission in which no event carrying absent data or data status "starting"
arrives for a step already in the interpreter's completed-set (the
`settledTrace` condition), after an event for a canonical visible step at
ordinal position k has been processed, every canonical step at ordinal
position strictly less than k has status completed, skipped, or failed —
never pending or active. Without that condition the property fails
(see the counterexample): a "starting" re-activation of an already-resolved
step leaves it `active` forever. -/
theorem c1_prior_steps_terminal (st0 : AppState) (evs : List ProgressEvent)
    (ev : ProgressEvent)
    (htr : settledTrace (submitInit st0) (evs ++ [ev]) = true)
    (hcanon : ev.step ∈ PIPELINE_STEPS) (s : String) (hs : s ∈ PIPELINE_STEPS)
    (hlt : stepIdx s < stepIdx ev.step) :
    ∃ stat, statusOf (processEvents (submitInit st0) (evs ++ [ev])).1 s = some stat ∧
      (stat = StepStatus.completed ∨ stat = StepStatus.skipped ∨ stat = StepStatus.failed) := by
  rw [settledTrace_append] at htr
  rw [Bool.and_eq_true] at htr
  obtain ⟨hg1, hinv1⟩ := processEvents_inv evs (submitInit st0) (submitInit_good st0)
    (submitInit_inv st0) htr.1
  rw [processEvents_append]
  have hone : processEvents (processEvents (submitInit st0) evs) [ev]
      = handleProgressEvent (processEvents (submitInit st0) evs) ev := rfl
  rw [hone]
  have hsettled : unsettledData ev.data = true →
      ev.step ∉ (processEvents (submitInit st0) evs).2.completedSteps := by
    intro hu hmem
    have h2 := htr.2
    have h2' : ((!(unsettledData ev.data) ||
        !((processEvents (submitInit st0) evs).2.completedSteps.contains ev.step)) &&
        settledTrace (handleProgressEvent (processEvents (submitInit st0) evs) ev) []) = true := h2
    rw [Bool.and_eq_true] at h2'
    have h1 := h2'.1
    rw [hu] at h1
    have hc : (processEvents (submitInit st0) evs).2.completedSteps.contains ev.step = true := by
      simpa using hmem
    rw [hc] at h1
    simp at h1
  exact handle_post _ ev hg1 hinv1 hcanon s hs hlt

/-- Witness for C1's amended theorem: a single settled `generation` event
resolves the earlier `retrieval` step to a terminal status. -/
theorem c1_prior_steps_terminal_witness :
    ∃ stat, statusOf (processEvents (submitInit {})
        ([] ++ [⟨"generation", some { status := some "done" }⟩])).1 "retrieval"
      = some stat ∧
      (stat = StepStatus.completed ∨ stat = StepStatus.skipped ∨ stat = StepStatus.failed) :=
  c1_prior_steps_terminal {} [] ⟨"generation", some { status := some "done" }⟩
    (by decide) (by decide) "retrieval" (by decide) (by decide)

/-- C7, amended: when a progress event for a canonical visible step arrives,
each earlier canonical step not yet recorded in the interpreter's
completed-set is marked `skipped` if and only if the current (triggering)
event's data carries a skipped flag, and `completed` otherwise — the earlier
step's own previous events play no role in this choice. -/
theorem c7_earlier_steps_marking (st : AppState) (ctx : SubmitCtx) (ev : ProgressEvent)
    (hg : goodProgress st) (hcanon : ev.step ∈ PIPELINE_STEPS)
    (s : String) (hs : s ∈ PIPELINE_STEPS) (hnc : s ∉ ctx.completedSteps)
    (hlt : stepIdx s < stepIdx ev.step) :
    statusOf (handleProgressEvent (st, ctx) ev).1 s
      = some (if dataSkipped ev.data then StepStatus.skipped else StepStatus.completed) := by
  rw [handle_canonical_of_mem _ ev hcanon]
  unfold canonicalMark
  have hsne : s ≠ ev.step := ne_of_stepIdx_lt hlt
  have hg1 : goodProgress (webClear (st, ctx) ev).1 := webClear_good _ ev hg
  have hsome := statusOf_isSome_of_good hg1 hs
  have hnc1 : s ∉ (webClear (st, ctx) ev).2.completedSteps := by
    rw [webClear_ctx]
    exact hnc
  have h3 := (markFold_mem ev PIPELINE_STEPS pipeline_steps_nodup (webClear (st, ctx) ev)
    s hsome hs).2.2.1 hsne hnc1 hlt
  exact (terminalMark_other _ ev s hsne).1.trans h3.1

/-- Witness for C7's amended theorem: a `retrieval` event with a skipped flag
marks the fresh `rewriting` step `skipped`. -/
theorem c7_earlier_steps_marking_witness :
    statusOf (handleProgressEvent ((submitInit {}).1, {})
        ⟨"retrieval", some { status := some "done", skipped := true }⟩).1 "rewriting"
      = some (if dataSkipped (some { status := some "done", skipped := true })
          then StepStatus.skipped else StepStatus.completed) :=
  c7_earlier_steps_marking (submitInit {}).1 {}
    ⟨"retrieval", some { status := some "done", skipped := true }⟩
    (submitInit_good {}) (by decide) "rewriting" (by decide) (by decide) (by decide)

/-! ## Streaming Answer Accumulator (C3)

The `answer_chunk` and `citation_verified` branches of the progress callback,
together with the `APPEND_STREAMING_CHUNK` / `ADD_STREAMING_CITATION` reducer
cases: content accumulates as the concatenation of the fragments, and the
bound response message mirrors the StreamingState after every event. -/

/-- The message bound by the active StreamingState, if any. -/
def boundMessage (st : AppState) : Option Message :=
  st.streamingState.bind (fun ss =>
    (st.conversations.find? (fun conv => conv.id = ss.conversationId)).bind
      (fun conv => conv.messages.find? (fun msg => msg.id = ss.messageId)))

/-- While streaming, the bound message mirrors the StreamingState: same
accumulated content, same citation-check list (the invariant of §3 of the
spec). -/
def Synced (st : AppState) : Prop :=
  ∃ ss m, st.streamingState = some ss ∧ boundMessage st = some m ∧
    m.content = ss.content ∧
    (m.metadata.bind (fun md => md.citationChecks)) = some ss.citationChecks

/-- An element of the streaming sub-protocol: an `answer_chunk` event carrying
a fragment, or a `citation_verified` event carrying a check. -/
inductive StreamEv where
  | chunk (fragment : String)
  | cite (c : CitationCheck)

/-- The wire event for a streaming element. -/
def toEvent : StreamEv → ProgressEvent
  | .chunk f => ⟨"answer_chunk", some { chunk := some f }⟩
  | .cite c => ⟨"citation_verified",
      some { citation_id := c.citation_id, claim := c.claim, confidence := c.confidence,
             is_valid := c.is_valid, explanation := c.explanation }⟩

/-- The fragment contributed by one streaming element. -/
def fragOf : StreamEv → String
  | .chunk f => f
  | .cite _ => ""

/-- The fragments of the `answer_chunk` events in a streaming sequence. -/
def fragsOf : List StreamEv → List String
  | [] => []
  | .chunk f :: rest => f :: fragsOf rest
  | .cite _ :: rest => fragsOf rest

/-- Concatenation of a fragment list. -/
def concatFrags : List String → String
  | [] => ""
  | f :: rest => f ++ concatFrags rest

/-- The per-conversation/per-message update shape shared by the two streaming
reducer cases. -/
def updConvMsg (cid mid : String) (updMsg : Message → Message) : Conversation → Conversation :=
  fun conv =>
    if conv.id = cid then
      { conv with messages := conv.messages.map (fun msg =>
          if msg.id = mid then updMsg msg else msg) }
    else conv

theorem appendChunk_eq (st : AppState) (ss : StreamingState)
    (hss : st.streamingState = some ss) (f : String) :
    appReducer st (.appendStreamingChunk f)
      = { st with
          streamingState := some { ss with content := ss.content ++ f },
          conversations := st.conversations.map (updConvMsg ss.conversationId ss.messageId
            (fun msg => { msg with content := ss.content ++ f })) } := by
  unfold appReducer updConvMsg
  rw [hss]

theorem addCitation_eq (st : AppState) (ss : StreamingState)
    (hss : st.streamingState = some ss) (c : CitationCheck) :
    appReducer st (.addStreamingCitation c)
      = { st with
          streamingState := some { ss with citationChecks := ss.citationChecks ++ [c] },
          conversations := st.conversations.map (updConvMsg ss.conversationId ss.messageId
            (fun msg => { msg with metadata := some ⟨some (ss.citationChecks ++ [c])⟩ })) } := by
  unfold appReducer updConvMsg
  rw [hss]

theorem find?_bind_updConvMsg (convs : List Conversation) (cid mid : String)
    (updMsg : Message → Message) (hupd : ∀ m, (updMsg m).id = m.id) (m : Message)
    (hbm : (convs.find? (fun conv => conv.id = cid)).bind
        (fun conv => conv.messages.find? (fun msg => msg.id = mid)) = some m) :
    ((convs.map (updConvMsg cid mid updMsg)).find? (fun conv => conv.id = cid)).bind
        (fun conv => conv.messages.find? (fun msg => msg.id = mid)) = some (updMsg m) := by
  have hconv : ∀ c, (updConvMsg cid mid updMsg c).id = c.id := by
    intro c
    unfold updConvMsg
    by_cases h : c.id = cid <;> simp [h]
  rw [find?_map_of_key (fun c => c.id) (updConvMsg cid mid updMsg) hconv convs cid]
  cases hc : convs.find? (fun conv => decide (conv.id = cid)) with
  | none => rw [hc] at hbm; simp at hbm
  | some c0 =>
      rw [hc] at hbm
      simp only [Option.map_some', Option.some_bind] at hbm ⊢
      have hc0 : c0.id = cid := by simpa using List.find?_some hc
      unfold updConvMsg
      rw [if_pos hc0]
      show (c0.messages.map (fun msg => if msg.id = mid then updMsg msg else msg)).find?
          (fun msg => decide (msg.id = mid)) = some (updMsg m)
      rw [find?_map_of_key (fun msg => msg.id)
        (fun msg => if msg.id = mid then updMsg msg else msg)
        (by intro a; by_cases h : a.id = mid <;> simp [h, hupd]) c0.messages mid]
      rw [hbm]
      have hm : m.id = mid := by simpa using List.find?_some hbm
      simp [hm]

theorem synced_afterChunk (st : AppState) (f : String) (hs : Synced st) :
    Synced (appReducer st (.appendStreamingChunk f)) := by
  obtain ⟨ss, m, hss, hbm, hc, hcc⟩ := hs
  rw [appendChunk_eq st ss hss f]
  refine ⟨{ ss with content := ss.content ++ f }, { m with content := ss.content ++ f },
    rfl, ?_, rfl, ?_⟩
  · unfold boundMessage at hbm ⊢
    rw [hss] at hbm
    simp only [Option.some_bind] at hbm ⊢
    exact find?_bind_updConvMsg st.conversations ss.conversationId ss.messageId
      (fun msg => { msg with content := ss.content ++ f }) (fun _ => rfl) m hbm
  · exact hcc

theorem synced_afterCitation (st : AppState) (c : CitationCheck) (hs : Synced st) :
    Synced (appReducer st (.addStreamingCitation c)) := by
  obtain ⟨ss, m, hss, hbm, hc, hcc⟩ := hs
  rw [addCitation_eq st ss hss c]
  refine ⟨{ ss with citationChecks := ss.citationChecks ++ [c] },
    { m with metadata := some ⟨some (ss.citationChecks ++ [c])⟩ }, rfl, ?_, hc, rfl⟩
  unfold boundMessage at hbm ⊢
  rw [hss] at hbm
  simp only [Option.some_bind] at hbm ⊢
  exact find?_bind_updConvMsg st.conversations ss.conversationId ss.messageId
    (fun msg => { msg with metadata := some ⟨some (ss.citationChecks ++ [c])⟩ })
    (fun _ => rfl) m hbm

theorem terminalMark_stream_fields (q : AppState × SubmitCtx) (ev : ProgressEvent) :
    (terminalMark q ev).1.streamingState = q.1.streamingState ∧
    (terminalMark q ev).1.conversations = q.1.conversations := by
  cases hd : ev.data with
  | none => rw [terminalMark_none_eq q ev hd]; exact ⟨rfl, rfl⟩
  | some d =>
      by_cases hds : d.status = some "starting"
      · rw [terminalMark_starting_eq q ev d hd hds]
        exact ⟨rfl, rfl⟩
      · rw [terminalMark_settled_eq q ev d hd hds]
        exact ⟨updateStep_streamingState _ _ _ _, updateStep_conversations _ _ _ _⟩

theorem canonicalMark_stream_fields (p : AppState × SubmitCtx) (ev : ProgressEvent) :
    (canonicalMark p ev).1.streamingState = p.1.streamingState ∧
    (canonicalMark p ev).1.conversations = p.1.conversations := by
  unfold canonicalMark
  have h1 := webClear_fields p ev
  have h2 := markFold_fields ev PIPELINE_STEPS (webClear p ev)
  have h3 := terminalMark_stream_fields (forEachMark ev (webClear p ev)) ev
  exact ⟨(h3.1.trans h2.1).trans h1.1, (h3.2.trans h2.2.1).trans h1.2⟩

theorem synced_congr {st st' : AppState} (hs : st'.streamingState = st.streamingState)
    (hc : st'.conversations = st.conversations) (h : Synced st) : Synced st' := by
  obtain ⟨ss, m, h1, h2, h3, h4⟩ := h
  refine ⟨ss, m, hs.trans h1, ?_, h3, h4⟩
  unfold boundMessage at h2 ⊢
  rw [hs, hc]
  exact h2

theorem handle_chunk_eq (st : AppState) (ctx : SubmitCtx) (f : String) (hf : f ≠ "") :
    handleProgressEvent (st, ctx) (toEvent (.chunk f))
      = (appReducer st (.appendStreamingChunk f),
         { ctx with streamedContent := ctx.streamedContent ++ f }) := by
  show handleProgressEvent (st, ctx) ⟨"answer_chunk", some { chunk := some f }⟩ = _
  unfold handleProgressEvent
  rw [if_pos ⟨rfl, by simp [chunkTruthy, hf]⟩]
  rfl

theorem handle_chunk_empty_eq (st : AppState) (ctx : SubmitCtx) :
    handleProgressEvent (st, ctx) (toEvent (.chunk ""))
      = canonicalMark (st, ctx) (toEvent (.chunk "")) := by
  show handleProgressEvent (st, ctx) ⟨"answer_chunk", some { chunk := some "" }⟩ = _
  unfold handleProgressEvent
  rw [if_neg (fun h => absurd h.2 (by decide)),
    if_neg (fun h => absurd h.1 (by decide)),
    if_neg (show ¬ (("answer_chunk" : String) = "answer_complete") by decide),
    if_neg (fun h => absurd h.1 (by decide))]
  rfl

theorem handle_cite_eq (st : AppState) (ctx : SubmitCtx) (c : CitationCheck) :
    handleProgressEvent (st, ctx) (toEvent (.cite c))
      = (appReducer st (.addStreamingCitation c),
         { ctx with streamedCitations := ctx.streamedCitations ++ [c] }) := by
  show handleProgressEvent (st, ctx) ⟨"citation_verified", some { citation_id := c.citation_id, claim := c.claim, confidence := c.confidence, is_valid := c.is_valid, explanation := c.explanation }⟩ = _
  unfold handleProgressEvent
  rw [if_neg (fun h => absurd h.1
      (show ¬ (("citation_verified" : String) = "answer_chunk") by decide)),
    if_pos ⟨rfl, rfl⟩]
  rfl

/-- Processing one streaming element preserves the sync invariant and appends
its fragment to the accumulated content. -/
theorem streamEv_step (st : AppState) (ctx : SubmitCtx) (e : StreamEv) (hs : Synced st) :
    Synced (handleProgressEvent (st, ctx) (toEvent e)).1 ∧
    ∀ ss, st.streamingState = some ss →
      ∃ ss1, (handleProgressEvent (st, ctx) (toEvent e)).1.streamingState = some ss1 ∧
        ss1.content = ss.content ++ fragOf e := by
  cases e with
  | chunk f =>
      by_cases hf : f = ""
      · subst hf
        rw [handle_chunk_empty_eq st ctx]
        have hfields := canonicalMark_stream_fields (st, ctx) (toEvent (.chunk ""))
        refine ⟨synced_congr hfields.1 hfields.2 hs, ?_⟩
        intro ss hss
        refine ⟨ss, hfields.1.trans hss, ?_⟩
        rw [fragOf]
        exact (String.append_empty ss.content).symm
      · rw [handle_chunk_eq st ctx f hf]
        refine ⟨synced_afterChunk st f hs, ?_⟩
        intro ss hss
        rw [appendChunk_eq st ss hss f]
        exact ⟨{ ss with content := ss.content ++ f }, rfl, rfl⟩
  | cite c =>
      rw [handle_cite_eq st ctx c]
      refine ⟨synced_afterCitation st c hs, ?_⟩
      intro ss hss
      rw [addCitation_eq st ss hss c]
      refine ⟨{ ss with citationChecks := ss.citationChecks ++ [c] }, rfl, ?_⟩
      rw [fragOf]
      exact (String.append_empty ss.content).symm

/-- C3: processing a sequence of `answer_chunk` events with fragments f1..fN,
possibly interleaved with `citation_verified` events, from a synced streaming
state yields StreamingState.content equal to the prior content followed by the
concatenation f1++...++fN; and after every event of the sequence the bound
response message's content and metadata.citationChecks equal StreamingState's
content and citationChecks (the `Synced` invariant holds at every prefix). -/
theorem c3_streaming_accumulation (sevs : List StreamEv) :
    ∀ (st : AppState) (ctx : SubmitCtx), Synced st →
      ((∀ n, Synced (processEvents (st, ctx) ((sevs.take n).map toEvent)).1) ∧
       ∀ ss, st.streamingState = some ss →
         ∃ ss1, (processEvents (st, ctx) (sevs.map toEvent)).1.streamingState = some ss1 ∧
           ss1.content = ss.content ++ concatFrags (fragsOf sevs)) := by
  induction sevs with
  | nil =>
      intro st ctx hs
      refine ⟨fun n => ?_, ?_⟩
      · rw [List.take_nil]
        exact hs
      · intro ss hss
        exact ⟨ss, hss, (String.append_empty ss.content).symm⟩
  | cons e rest ih =>
      intro st ctx hs
      obtain ⟨hsync1, hcontent1⟩ := streamEv_step st ctx e hs
      have ihp := ih (handleProgressEvent (st, ctx) (toEvent e)).1
        (handleProgressEvent (st, ctx) (toEvent e)).2 hsync1
      refine ⟨?_, ?_⟩
      · intro n
        cases n with
        | zero => exact hs
        | succ n => exact ihp.1 n
      · intro ss hss
        obtain ⟨ss1, hss1, hc1⟩ := hcontent1 ss hss
        obtain ⟨ss2, hss2, hc2⟩ := ihp.2 ss1 hss1
        refine ⟨ss2, hss2, ?_⟩
        rw [hc2, hc1]
        cases e with
        | chunk f =>
            show ss.content ++ f ++ concatFrags (fragsOf rest)
              = ss.content ++ concatFrags (f :: fragsOf rest)
            rw [concatFrags, String.append_assoc]
        | cite c =>
            show ss.content ++ "" ++ concatFrags (fragsOf rest)
              = ss.content ++ concatFrags (fragsOf rest)
            rw [String.append_empty]

/-- Witness for C3: two chunks and one citation from a fresh synced state give
content "ab" ++ "cd" and keep the message in sync. -/
theorem c3_streaming_accumulation_witness :
    ∃ ss1,
      (processEvents
        ({ conversations := [⟨"c1", "t",
              [⟨"m1", MessageType.response, "", some ⟨some []⟩⟩]⟩],
           streamingState := some ⟨"m1", "c1", "", [], true⟩ }, {})
        (([StreamEv.chunk "ab", StreamEv.cite ⟨1, "cl", 1, true, "ex"⟩,
           StreamEv.chunk "cd"]).map toEvent)).1.streamingState = some ss1 ∧
      ss1.content = "" ++ concatFrags (fragsOf [StreamEv.chunk "ab",
        StreamEv.cite ⟨1, "cl", 1, true, "ex"⟩, StreamEv.chunk "cd"]) :=
  (c3_streaming_accumulation
      [StreamEv.chunk "ab", StreamEv.cite ⟨1, "cl", 1, true, "ex"⟩, StreamEv.chunk "cd"]
      { conversations := [⟨"c1", "t", [⟨"m1", MessageType.response, "", some ⟨some []⟩⟩]⟩],
        streamingState := some ⟨"m1", "c1", "", [], true⟩ } {}
      ⟨⟨"m1", "c1", "", [], true⟩, ⟨"m1", MessageType.response, "", some ⟨some []⟩⟩,
        rfl, rfl, rfl, rfl⟩).2
    ⟨"m1", "c1", "", [], true⟩ rfl

/-! ## Upload Scheduler (C2, C8)

The upload loop of `startBatchUpload`: tasks are grouped into consecutive
chunks of 2 (`for (let i = 0; i < tasks.length; i += 2) slice(i, i+2)`); within
a chunk every task with a file reference is first dispatched to status
`uploading` (the async callbacks run synchronously up to their first await, in
order), then the chunk's transfers settle in an arbitrary order (modelled by
the per-chunk `swap` flag); a failed transfer dispatches status `error` with a
message, a successful one dispatches nothing; `startBatchProcessing` runs once
after the loop. `SchedState.inflight` instruments which body transfers have
started and not yet settled; `startCalls` counts start-processing
invocations. -/

/-- The chunking of the upload for-loop (`slice(i, i + 2)`). -/
def chunksOf : List UploadTask → List (List UploadTask)
  | [] => []
  | [t] => [[t]]
  | t1 :: t2 :: rest => [t1, t2] :: chunksOf rest

/-- One scheduler event: an `uploading` dispatch just before a body transfer
starts, the settling of a transfer (ok, or failed with a message), or the
single start-processing call. -/
inductive UpAction where
  | setUploading (tid : String)
  | settle (tid : String) (ok : Bool) (msg : String)
  | startProc
deriving DecidableEq, Repr

/-- Scheduler execution state: the app state plus instrumentation. -/
structure SchedState where
  app : AppState
  inflight : List String := []
  startCalls : Nat := 0
deriving DecidableEq, Repr

/-- Effect of one scheduler event. -/
def upStep (s : SchedState) (a : UpAction) : SchedState :=
  match a with
  | .setUploading tid =>
      { s with
        app := appReducer s.app (.updateUploadTask tid { status := some .uploading }),
        inflight := tid :: s.inflight }
  | .settle tid ok msg =>
      { s with
        inflight := s.inflight.erase tid,
        app := if ok then s.app
          else appReducer s.app (.updateUploadTask tid
            { status := some .error, errorMessage := some (some msg) }) }
  | .startProc => { s with startCalls := s.startCalls + 1 }

/-- The settle event of one task under a given outcome assignment (`none` =
transfer succeeds, `some m` = transfer rejects with message m). -/
def settleOf (outcome : String → Option String) (t : UploadTask) : UpAction :=
  .settle t.taskId (outcome t.taskId).isNone ((outcome t.taskId).getD "Upload failed")

/-- The events of one chunk: `uploading` dispatches for every task with a file,
in order, then their settles in chunk order or reversed. -/
def chunkActions (outcome : String → Option String) (swap : Bool)
    (chunk : List UploadTask) : List UpAction :=
  (chunk.filter (fun t => t.hasFile)).map (fun t => UpAction.setUploading t.taskId)
    ++ (if swap then ((chunk.filter (fun t => t.hasFile)).map (settleOf outcome)).reverse
        else (chunk.filter (fun t => t.hasFile)).map (settleOf outcome))

/-- The chunk loop: chunk N+1 starts only after chunk N has fully settled. -/
def chunkedActions (outcome : String → Option String) :
    List (List UploadTask) → List Bool → List UpAction
  | [], _ => []
  | c :: cs, swaps =>
      chunkActions outcome (swaps.headD false) c ++ chunkedActions outcome cs swaps.tail

/-- The whole scheduler run: the chunk loop, then one start-processing call. -/
def schedActions (tasks : List UploadTask) (outcome : String → Option String)
    (swaps : List Bool) : List UpAction :=
  chunkedActions outcome (chunksOf tasks) swaps ++ [.startProc]

/-- Final state of a scheduler run. -/
def runAll (s : SchedState) (acts : List UpAction) : SchedState := acts.foldl upStep s

/-- All states visited by a scheduler run (including start and end). -/
def runStates (s : SchedState) : List UpAction → List SchedState
  | [] => [s]
  | a :: rest => s :: runStates (upStep s a) rest

/-- Number of tasks of the active batch whose status is `uploading`. -/
def uploadingCount (st : AppState) : Nat :=
  match st.activeBatchUpload with
  | none => 0
  | some b => b.tasks.countP (fun t => t.status = .uploading)

/-- A three-task batch whose uploads all succeed. -/
def c2Batch : BatchUpload :=
  { batchId := "b"
    tasks :=
      [{ taskId := "t1", batchId := "b", filename := "t1.pdf", status := .pending, hasFile := true },
       { taskId := "t2", batchId := "b", filename := "t2.pdf", status := .pending, hasFile := true },
       { taskId := "t3", batchId := "b", filename := "t3.pdf", status := .pending, hasFile := true }] }

/-- Counterexample to C2 as stated: with three tasks all of whose transfers
succeed and no batch-progress events arriving, the execution reaches a state
where all three tasks simultaneously have status `uploading` — a successful
transfer dispatches no status change, so chunk 1's tasks still show
`uploading` when chunk 2 starts. -/
theorem c2_counterexample :
    ¬ ∀ x ∈ runStates { app := appReducer {} (.startBatchUpload c2Batch) }
          (schedActions c2Batch.tasks (fun _ => none) []),
        uploadingCount x.app ≤ 2 := by
  decide

/-- The pure effect of a scheduler event on the in-flight set. -/
def inflightFold (l : List String) (a : UpAction) : List String :=
  match a with
  | .setUploading tid => tid :: l
  | .settle tid _ _ => l.erase tid
  | .startProc => l

theorem upStep_inflight (s : SchedState) (a : UpAction) :
    (upStep s a).inflight = inflightFold s.inflight a := by
  cases a <;> rfl

theorem runAll_inflight (acts : List UpAction) :
    ∀ s : SchedState, (runAll s acts).inflight = acts.foldl inflightFold s.inflight := by
  induction acts with
  | nil => intro s; rfl
  | cons a rest ih =>
      intro s
      show (runAll (upStep s a) rest).inflight = _
      rw [ih (upStep s a), upStep_inflight]
      rfl

theorem mem_runStates (x : SchedState) (acts : List UpAction) :
    ∀ s, x ∈ runStates s acts → ∃ n, x = runAll s (acts.take n) := by
  induction acts with
  | nil =>
      intro s hx
      rw [runStates] at hx
      rcases List.mem_singleton.mp hx with h
      exact ⟨0, h⟩
  | cons a rest ih =>
      intro s hx
      rw [runStates] at hx
      rcases List.mem_cons.mp hx with h | h
      · exact ⟨0, h⟩
      · obtain ⟨n, hn⟩ := ih (upStep s a) h
        exact ⟨n + 1, hn⟩

theorem foldl_push_ids (ids : List String) :
    ∀ X : List String,
      ((ids.map UpAction.setUploading).foldl inflightFold X).length = X.length + ids.length := by
  induction ids with
  | nil => intro X; simp
  | cons i rest ih =>
      intro X
      show ((rest.map UpAction.setUploading).foldl inflightFold (i :: X)).length = _
      rw [ih (i :: X)]
      simp
      omega

/-- Whether a scheduler event is a settle event. -/
def actionIsSettle : UpAction → Bool
  | .settle _ _ _ => true
  | _ => false

theorem foldl_erase_length (l : List UpAction) (hl : ∀ a ∈ l, actionIsSettle a = true) :
    ∀ X : List String, (l.foldl inflightFold X).length ≤ X.length := by
  induction l with
  | nil => intro X; simp
  | cons a rest ih =>
      intro X
      have ha := hl a (List.mem_cons_self a rest)
      have hrest : ∀ a ∈ rest, actionIsSettle a = true :=
        fun a h => hl a (List.mem_cons_of_mem _ h)
      cases a with
      | setUploading tid => simp [actionIsSettle] at ha
      | startProc => simp [actionIsSettle] at ha
      | settle tid ok msg =>
          show ((rest.foldl inflightFold (X.erase tid)).length ≤ X.length)
          calc (rest.foldl inflightFold (X.erase tid)).length
              ≤ (X.erase tid).length := ih hrest (X.erase tid)
            _ ≤ X.length := List.length_erase_le tid X

theorem foldl_erase_of_perm (p : List String) :
    ∀ l : List String, p.Perm l → p.foldl (fun acc x => acc.erase x) l = [] := by
  induction p with
  | nil =>
      intro l h
      rw [List.foldl_nil]
      exact h.symm.eq_nil
  | cons a p ih =>
      intro l h
      rw [List.foldl_cons]
      exact ih (l.erase a) (List.cons_perm_iff_perm_erase.mp h).2

theorem foldl_push_content (ids : List String) :
    ∀ X : List String, (ids.map UpAction.setUploading).foldl inflightFold X = ids.reverse ++ X := by
  induction ids with
  | nil => intro X; simp
  | cons i rest ih =>
      intro X
      show (rest.map UpAction.setUploading).foldl inflightFold (i :: X) = _
      rw [ih (i :: X)]
      simp

theorem foldl_settles_erase (outcome : String → Option String) (l : List UploadTask) :
    ∀ X : List String,
      (l.map (settleOf outcome)).foldl inflightFold X
        = (l.map (fun t => t.taskId)).foldl (fun acc x => acc.erase x) X := by
  induction l with
  | nil => intro X; rfl
  | cons t rest ih =>
      intro X
      show (rest.map (settleOf outcome)).foldl inflightFold (X.erase t.taskId) = _
      rw [ih (X.erase t.taskId)]
      rfl

theorem settles_are_settles (outcome : String → Option String) (live : List UploadTask)
    (swap : Bool) (a : UpAction)
    (ha : a ∈ (if swap then (live.map (settleOf outcome)).reverse
        else live.map (settleOf outcome))) : actionIsSettle a = true := by
  have hmem : a ∈ live.map (settleOf outcome) := by
    by_cases hsw : swap
    · rw [if_pos hsw, List.mem_reverse] at ha
      exact ha
    · rw [if_neg hsw] at ha
      exact ha
  obtain ⟨t, _, hta⟩ := List.mem_map.mp hmem
  rw [← hta]
  rfl

theorem pushes_settles_bound (outcome : String → Option String) (live : List UploadTask)
    (hll : live.length ≤ 2) (swap : Bool) :
    (∀ n, ((((live.map (fun t => UpAction.setUploading t.taskId))
        ++ (if swap then (live.map (settleOf outcome)).reverse
            else live.map (settleOf outcome))).take n).foldl inflightFold []).length ≤ 2) ∧
    ((live.map (fun t => UpAction.setUploading t.taskId))
        ++ (if swap then (live.map (settleOf outcome)).reverse
            else live.map (settleOf outcome))).foldl inflightFold [] = [] := by
  have hpushes : live.map (fun t => UpAction.setUploading t.taskId)
      = (live.map (fun t => t.taskId)).map UpAction.setUploading := by
    rw [List.map_map]
    rfl
  have hidl : (live.map (fun t => t.taskId)).length ≤ 2 := by
    rw [List.length_map]
    exact hll
  constructor
  · intro n
    rw [List.take_append_eq_append_take, List.foldl_append]
    have hlen1 : (((live.map (fun t => UpAction.setUploading t.taskId)).take n).foldl
        inflightFold []).length ≤ 2 := by
      rw [hpushes, ← List.map_take, foldl_push_ids]
      calc 0 + ((live.map (fun t => t.taskId)).take n).length
          ≤ ((live.map (fun t => t.taskId)).take n).length := by omega
        _ ≤ (live.map (fun t => t.taskId)).length := by
            rw [List.length_take]
            exact min_le_right _ _
        _ ≤ 2 := hidl
    refine le_trans (foldl_erase_length _ ?_ _) hlen1
    intro a ha
    exact settles_are_settles outcome live swap a (List.take_subset _ _ ha)
  · rw [List.foldl_append]
    rw [hpushes, foldl_push_content, List.append_nil]
    by_cases hsw : swap
    · rw [if_pos hsw]
      have hrev : (live.map (settleOf outcome)).reverse = live.reverse.map (settleOf outcome) := by
        rw [List.map_reverse]
      rw [hrev, foldl_settles_erase]
      have hperm : (live.reverse.map (fun t => t.taskId)).Perm
          ((live.map (fun t => t.taskId)).reverse) := by
        rw [List.map_reverse]
      exact foldl_erase_of_perm _ _ (by rw [List.map_reverse])
    · rw [if_neg hsw]
      rw [foldl_settles_erase]
      exact foldl_erase_of_perm _ _ (List.reverse_perm _).symm

theorem chunk_inflight (outcome : String → Option String) (swap : Bool)
    (chunk : List UploadTask) (hlen : chunk.length ≤ 2) :
    (∀ n, (((chunkActions outcome swap chunk).take n).foldl inflightFold []).length ≤ 2) ∧
    (chunkActions outcome swap chunk).foldl inflightFold [] = [] :=
  pushes_settles_bound outcome (chunk.filter (fun t => t.hasFile))
    (le_trans (List.length_filter_le _ _) hlen) swap

theorem chunksOf_len : ∀ (tasks : List UploadTask), ∀ c ∈ chunksOf tasks, c.length ≤ 2
  | [] => by simp [chunksOf]
  | [t] => by simp [chunksOf]
  | t1 :: t2 :: rest => by
      intro c hc
      rw [chunksOf] at hc
      rcases List.mem_cons.mp hc with h | h
      · subst h; simp
      · exact chunksOf_len rest c h

theorem chunksOf_join : ∀ tasks : List UploadTask, (chunksOf tasks).flatten = tasks
  | [] => rfl
  | [t] => rfl
  | t1 :: t2 :: rest => by
      rw [chunksOf, List.flatten_cons, chunksOf_join rest]
      rfl

theorem chunked_inflight (outcome : String → Option String) :
    ∀ (chunks : List (List UploadTask)) (swaps : List Bool),
      (∀ c ∈ chunks, c.length ≤ 2) →
      (∀ n, (((chunkedActions outcome chunks swaps).take n).foldl inflightFold []).length ≤ 2) ∧
      (chunkedActions outcome chunks swaps).foldl inflightFold [] = [] := by
  intro chunks
  induction chunks with
  | nil =>
      intro swaps _
      constructor
      · intro n
        show ((([] : List UpAction).take n).foldl inflightFold []).length ≤ 2
        rw [List.take_nil]
        exact Nat.zero_le 2
      · rfl
  | cons c cs ih =>
      intro swaps hlen
      have hc := chunk_inflight outcome (swaps.headD false) c
        (hlen c (List.mem_cons_self c cs))
      have hcs := ih swaps.tail (fun c' h => hlen c' (List.mem_cons_of_mem _ h))
      constructor
      · intro n
        rw [chunkedActions, List.take_append_eq_append_take, List.foldl_append]
        by_cases hn : n ≤ (chunkActions outcome (swaps.headD false) c).length
        · have hz : n - (chunkActions outcome (swaps.headD false) c).length = 0 := by omega
          rw [hz, List.take_zero, List.foldl_nil]
          exact hc.1 n
        · have hfull : (chunkActions outcome (swaps.headD false) c).take n
              = chunkActions outcome (swaps.headD false) c :=
            List.take_of_length_le (by omega)
          rw [hfull, hc.2]
          exact hcs.1 _
      · rw [chunkedActions, List.foldl_append, hc.2]
        exact hcs.2

/-- C2, amended: at no point in any scheduler execution are more than two body
transfers simultaneously in flight (started and not yet settled). The claim as
stated about status `uploading` fails (see the counterexample): a successful
transfer dispatches no status change, so tasks from earlier chunks keep status
`uploading` while later chunks upload, and the count of tasks bearing status
`uploading` can reach the whole batch size. -/
theorem c2_inflight_bound (tasks : List UploadTask) (outcome : String → Option String)
    (swaps : List Bool) (s0 : SchedState) (h0 : s0.inflight = [])
    (x : SchedState) (hx : x ∈ runStates s0 (schedActions tasks outcome swaps)) :
    x.inflight.length ≤ 2 := by
  obtain ⟨n, hn⟩ := mem_runStates x _ s0 hx
  subst hn
  rw [runAll_inflight, h0]
  unfold schedActions
  rw [List.take_append_eq_append_take, List.foldl_append]
  have hbase := (chunked_inflight outcome (chunksOf tasks) swaps (chunksOf_len tasks)).1 n
  rcases Nat.eq_zero_or_pos (n - (chunkedActions outcome (chunksOf tasks) swaps).length)
    with hz | hp
  · rw [hz, List.take_zero, List.foldl_nil]
    exact hbase
  · have hone : List.take (n - (chunkedActions outcome (chunksOf tasks) swaps).length)
        [UpAction.startProc] = [UpAction.startProc] :=
      List.take_of_length_le (by simp only [List.length_singleton]; omega)
    rw [hone]
    exact hbase

/-- Witness for C2's amended theorem: the final state of the concrete
three-task run has no transfer in flight. -/
theorem c2_inflight_bound_witness :
    (runAll { app := appReducer {} (.startBatchUpload c2Batch) }
        (schedActions c2Batch.tasks (fun _ => none) [])).inflight.length ≤ 2 :=
  c2_inflight_bound c2Batch.tasks (fun _ => none) []
    { app := appReducer {} (.startBatchUpload c2Batch) } rfl _
    (by decide)

/-! ### Task effects of the scheduler (C8) -/

/-- The displayed status of a task in the active batch. -/
def taskStatus (st : AppState) (tid : String) : Option UploadTaskStatus :=
  (taskById st tid).map (fun t => t.status)

/-- The displayed error message of a task in the active batch. -/
def taskError (st : AppState) (tid : String) : Option (Option String) :=
  (taskById st tid).map (fun t => t.errorMessage)

theorem updateTask_noBatch (st : AppState) (tid : String) (u : TaskUpdates)
    (hb : st.activeBatchUpload = none) :
    appReducer st (.updateUploadTask tid u) = st := by
  unfold appReducer
  rw [hb]

theorem taskById_updateTask (st : AppState) (tid : String) (u : TaskUpdates) (tid' : String) :
    taskById (appReducer st (.updateUploadTask tid u)) tid'
      = if tid' = tid then (taskById st tid').map (fun t => applyTaskUpdates t u)
        else taskById st tid' := by
  cases hb : st.activeBatchUpload with
  | none =>
      rw [updateTask_noBatch st tid u hb]
      have hnone : taskById st tid' = none := by
        unfold taskById
        rw [hb]
        rfl
      rw [hnone]
      cases h : decide (tid' = tid) <;> simp_all
  | some b =>
      unfold appReducer taskById
      rw [hb]
      simp only [Option.some_bind]
      rw [find?_map_of_key (fun t => t.taskId)
        (fun task => if task.taskId = tid then applyTaskUpdates task u else task)
        (by intro a; by_cases h : a.taskId = tid <;> simp [h, applyTaskUpdates]) b.tasks tid']
      cases hx : b.tasks.find? (fun t => decide (t.taskId = tid')) with
      | none => cases h : decide (tid' = tid) <;> simp_all
      | some x =>
          have hxk : x.taskId = tid' := by simpa using List.find?_some hx
          by_cases h : tid' = tid
          · subst h
            simp [hxk]
          · have hxt : ¬ (x.taskId = tid) := by rw [hxk]; exact h
            simp [hxt, h]

/-- The task id an event targets. -/
def actionTid : UpAction → Option String
  | .setUploading tid => some tid
  | .settle tid _ _ => some tid
  | .startProc => none

theorem upStep_untargeted (s : SchedState) (a : UpAction) (tid : String)
    (h : actionTid a ≠ some tid) :
    taskById (upStep s a).app tid = taskById s.app tid := by
  cases a with
  | setUploading tid' =>
      have hne : tid ≠ tid' := fun he => h (by subst he; rfl)
      show taskById (appReducer s.app (.updateUploadTask tid' { status := some .uploading })) tid
        = _
      rw [taskById_updateTask, if_neg hne]
  | settle tid' ok msg =>
      have hne : tid ≠ tid' := fun he => h (by subst he; rfl)
      show taskById (if ok then s.app else appReducer s.app (.updateUploadTask tid'
        { status := some .error, errorMessage := some (some msg) })) tid = _
      by_cases hok : ok
      · rw [if_pos hok]
      · rw [if_neg hok, taskById_updateTask, if_neg hne]
  | startProc => rfl

theorem upStep_settle_ok_app (s : SchedState) (tid m : String) :
    (upStep s (UpAction.settle tid true m)).app = s.app := rfl

theorem upStep_settle_fail_app (s : SchedState) (tid m : String) :
    (upStep s (UpAction.settle tid false m)).app
      = appReducer s.app (.updateUploadTask tid
          { status := some .error, errorMessage := some (some m) }) := rfl

theorem runAll_append (s : SchedState) (l1 l2 : List UpAction) :
    runAll s (l1 ++ l2) = runAll (runAll s l1) l2 :=
  List.foldl_append _ _ _ _

theorem runAll_untargeted (acts : List UpAction) :
    ∀ (s : SchedState) (tid : String), (∀ a ∈ acts, actionTid a ≠ some tid) →
      taskById (runAll s acts).app tid = taskById s.app tid := by
  induction acts with
  | nil => intro s tid _; rfl
  | cons a rest ih =>
      intro s tid hall
      show taskById (runAll (upStep s a) rest).app tid = _
      rw [ih (upStep s a) tid (fun a h => hall a (List.mem_cons_of_mem _ h)),
        upStep_untargeted s a tid (hall a (List.mem_cons_self a rest))]

/-- Running the scheduler over untargeted actions X, the uploading dispatch,
untargeted Y, the settle, and untargeted Z: the task's record is updated to
`uploading`, then (on failure) to `error` with the message. -/
theorem status_after_pair (X Y Z : List UpAction) (tid : String) (ok : Bool) (m : String)
    (s : SchedState)
    (hX : ∀ a ∈ X, actionTid a ≠ some tid) (hY : ∀ a ∈ Y, actionTid a ≠ some tid)
    (hZ : ∀ a ∈ Z, actionTid a ≠ some tid) :
    taskById (runAll s (X ++ [UpAction.setUploading tid]
        ++ (Y ++ ([UpAction.settle tid ok m] ++ Z)))).app tid
      = (taskById s.app tid).map (fun x =>
          if ok then applyTaskUpdates x { status := some .uploading }
          else applyTaskUpdates (applyTaskUpdates x { status := some .uploading })
            { status := some .error, errorMessage := some (some m) }) := by
  have hsplit : runAll s (X ++ [UpAction.setUploading tid]
        ++ (Y ++ ([UpAction.settle tid ok m] ++ Z)))
      = runAll (upStep (runAll (upStep (runAll s X) (UpAction.setUploading tid)) Y)
          (UpAction.settle tid ok m)) Z := by
    rw [runAll_append, runAll_append, runAll_append, runAll_append]
    rfl
  rw [hsplit, runAll_untargeted Z _ tid hZ]
  have e1 : taskById (runAll s X).app tid = taskById s.app tid := runAll_untargeted X s tid hX
  have e2 : taskById (upStep (runAll s X) (UpAction.setUploading tid)).app tid
      = (taskById s.app tid).map (fun x => applyTaskUpdates x { status := some .uploading }) := by
    show taskById (appReducer (runAll s X).app
      (.updateUploadTask tid { status := some .uploading })) tid = _
    rw [taskById_updateTask, if_pos rfl, e1]
  have e3 : taskById (runAll (upStep (runAll s X) (UpAction.setUploading tid)) Y).app tid
      = (taskById s.app tid).map (fun x => applyTaskUpdates x { status := some .uploading }) := by
    rw [runAll_untargeted Y _ tid hY, e2]
  by_cases hok : ok
  · subst hok
    rw [upStep_settle_ok_app, e3]
    rfl
  · have hok' : ok = false := by simpa using hok
    subst hok'
    rw [upStep_settle_fail_app, taskById_updateTask, if_pos rfl, e3, Option.map_map]
    rfl

/-- The combined effect of one task's upload on its own record: `uploading`
just before the transfer, then `error` with the message if the transfer
fails (a successful transfer dispatches nothing further). -/
def upEffect (outcome : String → Option String) (tid : String) (x : UploadTask) : UploadTask :=
  if (outcome tid).isNone then applyTaskUpdates x { status := some UploadTaskStatus.uploading }
  else applyTaskUpdates (applyTaskUpdates x { status := some UploadTaskStatus.uploading })
    { status := some UploadTaskStatus.error,
      errorMessage := some (some ((outcome tid).getD "Upload failed")) }

theorem pair_sublist_chunk (outcome : String → Option String) (swap : Bool)
    (c : List UploadTask) (t : UploadTask) (ht : t ∈ c) (hf : t.hasFile = true) :
    [UpAction.setUploading t.taskId, settleOf outcome t].Sublist
      (chunkActions outcome swap c) := by
  have hlive : t ∈ c.filter (fun u => u.hasFile) := List.mem_filter.mpr ⟨ht, hf⟩
  show ([UpAction.setUploading t.taskId] ++ [settleOf outcome t]).Sublist _
  unfold chunkActions
  apply List.Sublist.append
  · rw [List.singleton_sublist]
    exact List.mem_map.mpr ⟨t, hlive, rfl⟩
  · rw [List.singleton_sublist]
    by_cases hs : swap
    · rw [if_pos hs, List.mem_reverse]
      exact List.mem_map.mpr ⟨t, hlive, rfl⟩
    · rw [if_neg hs]
      exact List.mem_map.mpr ⟨t, hlive, rfl⟩

theorem sublist_chunked_of_mem (outcome : String → Option String) (l : List UpAction) :
    ∀ (chunks : List (List UploadTask)) (swaps : List Bool) (c : List UploadTask),
      c ∈ chunks → (∀ swap, l.Sublist (chunkActions outcome swap c)) →
      l.Sublist (chunkedActions outcome chunks swaps) := by
  intro chunks
  induction chunks with
  | nil => intro swaps c hc _; exact absurd hc (List.not_mem_nil c)
  | cons c0 cs ih =>
      intro swaps c hc hsub
      rw [chunkedActions]
      rcases List.mem_cons.mp hc with h | h
      · subst h
        exact (hsub (swaps.headD false)).trans (List.sublist_append_left _ _)
      · exact ((ih swaps.tail c h hsub).trans (List.sublist_append_right _ _))

theorem pair_sublist_sched (tasks : List UploadTask) (outcome : String → Option String)
    (swaps : List Bool) (t : UploadTask) (ht : t ∈ tasks) (hf : t.hasFile = true) :
    [UpAction.setUploading t.taskId, settleOf outcome t].Sublist
      (schedActions tasks outcome swaps) := by
  have hm : t ∈ (chunksOf tasks).flatten := by rw [chunksOf_join]; exact ht
  rcases List.mem_flatten.mp hm with ⟨c, hc, htc⟩
  refine List.Sublist.trans ?_ (List.sublist_append_left _ _)
  exact sublist_chunked_of_mem outcome _ (chunksOf tasks) swaps c hc
    (fun swap => pair_sublist_chunk outcome swap c t htc hf)

/-- Whether a scheduler event is the start-processing call. -/
def isStartProc : UpAction → Bool
  | .startProc => true
  | _ => false

theorem upStep_startCalls (s : SchedState) (a : UpAction) :
    (upStep s a).startCalls = s.startCalls + (if isStartProc a then 1 else 0) := by
  cases a <;> rfl

theorem runAll_startCalls (acts : List UpAction) :
    ∀ s : SchedState, (runAll s acts).startCalls
      = s.startCalls + acts.countP (fun a => isStartProc a) := by
  induction acts with
  | nil => intro s; rfl
  | cons a rest ih =>
      intro s
      show (runAll (upStep s a) rest).startCalls = _
      rw [ih (upStep s a), upStep_startCalls, List.countP_cons]
      cases a with
      | setUploading tid => simp [isStartProc]
      | settle tid ok msg => simp [isStartProc]
      | startProc => simp [isStartProc]; omega

theorem chunkActions_tids (outcome : String → Option String) (swap : Bool)
    (c : List UploadTask) (a : UpAction) (ha : a ∈ chunkActions outcome swap c) :
    ∃ u ∈ c, u.hasFile = true ∧ actionTid a = some u.taskId := by
  unfold chunkActions at ha
  rcases List.mem_append.mp ha with h | h
  · rcases List.mem_map.mp h with ⟨u, hu, he⟩
    have hu' := List.mem_filter.mp hu
    exact ⟨u, hu'.1, by simpa using hu'.2, by rw [← he]; rfl⟩
  · have h' : a ∈ (c.filter (fun u => u.hasFile)).map (settleOf outcome) := by
      by_cases hs : swap
      · rw [if_pos hs] at h; exact List.mem_reverse.mp h
      · rw [if_neg hs] at h; exact h
    rcases List.mem_map.mp h' with ⟨u, hu, he⟩
    have hu' := List.mem_filter.mp hu
    exact ⟨u, hu'.1, by simpa using hu'.2, by rw [← he]; rfl⟩

theorem chunkedActions_tids (outcome : String → Option String) :
    ∀ (chunks : List (List UploadTask)) (swaps : List Bool) (a : UpAction),
      a ∈ chunkedActions outcome chunks swaps →
      ∃ u ∈ chunks.flatten, u.hasFile = true ∧ actionTid a = some u.taskId := by
  intro chunks
  induction chunks with
  | nil => intro swaps a ha; exact absurd ha (List.not_mem_nil a)
  | cons c cs ih =>
      intro swaps a ha
      rw [chunkedActions] at ha
      rcases List.mem_append.mp ha with h | h
      · rcases chunkActions_tids outcome _ c a h with ⟨u, hu, hfl, ht⟩
        exact ⟨u, by rw [List.flatten_cons]; exact List.mem_append_left _ hu, hfl, ht⟩
      · rcases ih swaps.tail a h with ⟨u, hu, hfl, ht⟩
        exact ⟨u, by rw [List.flatten_cons]; exact List.mem_append_right _ hu, hfl, ht⟩

theorem chunkActions_no_start (outcome : String → Option String) (swap : Bool)
    (c : List UploadTask) :
    (chunkActions outcome swap c).countP (fun a => isStartProc a) = 0 := by
  rw [List.countP_eq_zero]
  intro a ha
  rcases chunkActions_tids outcome swap c a ha with ⟨u, _, _, ht⟩
  cases a with
  | setUploading tid => simp [isStartProc]
  | settle tid ok msg => simp [isStartProc]
  | startProc => exact absurd ht (by simp [actionTid])

theorem chunkedActions_no_start (outcome : String → Option String) :
    ∀ (chunks : List (List UploadTask)) (swaps : List Bool),
      (chunkedActions outcome chunks swaps).countP (fun a => isStartProc a) = 0 := by
  intro chunks
  induction chunks with
  | nil => intro swaps; rfl
  | cons c cs ih =>
      intro swaps
      rw [chunkedActions, List.countP_append, chunkActions_no_start, ih swaps.tail]

/-- Effect of one chunk on a member task's record (chunks have at most 2
tasks, with distinct ids). -/
theorem chunk_effect_self (outcome : String → Option String) (swap : Bool)
    (c : List UploadTask) (hlen : c.length ≤ 2)
    (hnd : (c.map (fun u => u.taskId)).Nodup)
    (s : SchedState) (t : UploadTask) (ht : t ∈ c) (hf : t.hasFile = true) :
    taskById (runAll s (chunkActions outcome swap c)).app t.taskId
      = (taskById s.app t.taskId).map (upEffect outcome t.taskId) := by
  rcases c with _ | ⟨a, _ | ⟨b, _ | ⟨x0, rest⟩⟩⟩
  · exact absurd ht (List.not_mem_nil t)
  · rw [List.mem_singleton] at ht
    subst ht
    have hlive : [t].filter (fun u => u.hasFile) = [t] := by
      simp [List.filter_cons, hf]
    unfold chunkActions
    rw [hlive]
    cases swap with
    | false =>
        refine Eq.trans (status_after_pair [] [] [] t.taskId ((outcome t.taskId).isNone)
          ((outcome t.taskId).getD "Upload failed") s ?_ ?_ ?_) rfl
        · intro y hy; exact absurd hy (List.not_mem_nil y)
        · intro y hy; exact absurd hy (List.not_mem_nil y)
        · intro y hy; exact absurd hy (List.not_mem_nil y)
    | true =>
        refine Eq.trans (status_after_pair [] [] [] t.taskId ((outcome t.taskId).isNone)
          ((outcome t.taskId).getD "Upload failed") s ?_ ?_ ?_) rfl
        · intro y hy; exact absurd hy (List.not_mem_nil y)
        · intro y hy; exact absurd hy (List.not_mem_nil y)
        · intro y hy; exact absurd hy (List.not_mem_nil y)
  · have hab : a.taskId ≠ b.taskId := by
      rw [List.map_cons, List.map_cons, List.map_nil] at hnd
      simpa using (List.nodup_cons.mp hnd).1
    rcases List.mem_cons.mp ht with hta | htb
    · subst hta
      have hne : (some b.taskId : Option String) ≠ some t.taskId :=
        fun hc => hab (Option.some_injective _ hc).symm
      by_cases hbf : b.hasFile = true
      · have hlive : [t, b].filter (fun u => u.hasFile) = [t, b] := by
          simp [List.filter_cons, hf, hbf]
        unfold chunkActions
        rw [hlive]
        cases swap with
        | false =>
            refine Eq.trans (status_after_pair [] [UpAction.setUploading b.taskId]
              [settleOf outcome b] t.taskId ((outcome t.taskId).isNone)
              ((outcome t.taskId).getD "Upload failed") s ?_ ?_ ?_) rfl
            · intro y hy; exact absurd hy (List.not_mem_nil y)
            · intro y hy; rw [List.mem_singleton] at hy; subst hy; exact hne
            · intro y hy; rw [List.mem_singleton] at hy; subst hy; exact hne
        | true =>
            refine Eq.trans (status_after_pair []
              [UpAction.setUploading b.taskId, settleOf outcome b]
              [] t.taskId ((outcome t.taskId).isNone)
              ((outcome t.taskId).getD "Upload failed") s ?_ ?_ ?_) rfl
            · intro y hy; exact absurd hy (List.not_mem_nil y)
            · intro y hy
              rcases List.mem_cons.mp hy with h | h
              · subst h; exact hne
              · rw [List.mem_singleton] at h; subst h; exact hne
            · intro y hy; exact absurd hy (List.not_mem_nil y)
      · have hbf' : b.hasFile = false := by simpa using hbf
        have hlive : [t, b].filter (fun u => u.hasFile) = [t] := by
          simp [List.filter_cons, hf, hbf']
        unfold chunkActions
        rw [hlive]
        cases swap with
        | false =>
            refine Eq.trans (status_after_pair [] [] [] t.taskId ((outcome t.taskId).isNone)
              ((outcome t.taskId).getD "Upload failed") s ?_ ?_ ?_) rfl
            · intro y hy; exact absurd hy (List.not_mem_nil y)
            · intro y hy; exact absurd hy (List.not_mem_nil y)
            · intro y hy; exact absurd hy (List.not_mem_nil y)
        | true =>
            refine Eq.trans (status_after_pair [] [] [] t.taskId ((outcome t.taskId).isNone)
              ((outcome t.taskId).getD "Upload failed") s ?_ ?_ ?_) rfl
            · intro y hy; exact absurd hy (List.not_mem_nil y)
            · intro y hy; exact absurd hy (List.not_mem_nil y)
            · intro y hy; exact absurd hy (List.not_mem_nil y)
    · rw [List.mem_singleton] at htb
      subst htb
      have hne : (some a.taskId : Option String) ≠ some t.taskId :=
        fun hc => hab (Option.some_injective _ hc)
      by_cases haf : a.hasFile = true
      · have hlive : [a, t].filter (fun u => u.hasFile) = [a, t] := by
          simp [List.filter_cons, haf, hf]
        unfold chunkActions
        rw [hlive]
        cases swap with
        | false =>
            refine Eq.trans (status_after_pair [UpAction.setUploading a.taskId]
              [settleOf outcome a] [] t.taskId ((outcome t.taskId).isNone)
              ((outcome t.taskId).getD "Upload failed") s ?_ ?_ ?_) rfl
            · intro y hy; rw [List.mem_singleton] at hy; subst hy; exact hne
            · intro y hy; rw [List.mem_singleton] at hy; subst hy; exact hne
            · intro y hy; exact absurd hy (List.not_mem_nil y)
        | true =>
            refine Eq.trans (status_after_pair [UpAction.setUploading a.taskId]
              [] [settleOf outcome a] t.taskId ((outcome t.taskId).isNone)
              ((outcome t.taskId).getD "Upload failed") s ?_ ?_ ?_) rfl
            · intro y hy; rw [List.mem_singleton] at hy; subst hy; exact hne
            · intro y hy; exact absurd hy (List.not_mem_nil y)
            · intro y hy; rw [List.mem_singleton] at hy; subst hy; exact hne
      · have haf' : a.hasFile = false := by simpa using haf
        have hlive : [a, t].filter (fun u => u.hasFile) = [t] := by
          simp [List.filter_cons, haf', hf]
        unfold chunkActions
        rw [hlive]
        cases swap with
        | false =>
            refine Eq.trans (status_after_pair [] [] [] t.taskId ((outcome t.taskId).isNone)
              ((outcome t.taskId).getD "Upload failed") s ?_ ?_ ?_) rfl
            · intro y hy; exact absurd hy (List.not_mem_nil y)
            · intro y hy; exact absurd hy (List.not_mem_nil y)
            · intro y hy; exact absurd hy (List.not_mem_nil y)
        | true =>
            refine Eq.trans (status_after_pair [] [] [] t.taskId ((outcome t.taskId).isNone)
              ((outcome t.taskId).getD "Upload failed") s ?_ ?_ ?_) rfl
            · intro y hy; exact absurd hy (List.not_mem_nil y)
            · intro y hy; exact absurd hy (List.not_mem_nil y)
            · intro y hy; exact absurd hy (List.not_mem_nil y)
  · rw [List.length_cons, List.length_cons, List.length_cons] at hlen
    omega

/-- Effect of the whole chunk loop on a member task's record. -/
theorem chunked_effect (outcome : String → Option String) :
    ∀ (chunks : List (List UploadTask)) (swaps : List Bool) (s : SchedState)
      (t : UploadTask),
      (∀ c ∈ chunks, c.length ≤ 2) →
      (chunks.flatten.map (fun u => u.taskId)).Nodup →
      t ∈ chunks.flatten → t.hasFile = true →
      taskById (runAll s (chunkedActions outcome chunks swaps)).app t.taskId
        = (taskById s.app t.taskId).map (upEffect outcome t.taskId) := by
  intro chunks
  induction chunks with
  | nil =>
      intro swaps s t _ _ hm _
      rw [List.flatten_nil] at hm
      exact absurd hm (List.not_mem_nil t)
  | cons c cs ih =>
      intro swaps s t hlen hnd hm hf
      rw [List.flatten_cons] at hm
      rw [List.flatten_cons, List.map_append, List.nodup_append] at hnd
      obtain ⟨hnd1, hnd2, hdisj⟩ := hnd
      rw [chunkedActions, runAll_append]
      rcases List.mem_append.mp hm with hmc | hmcs
      · have htail : ∀ a ∈ chunkedActions outcome cs swaps.tail,
            actionTid a ≠ some t.taskId := by
          intro a ha hc
          rcases chunkedActions_tids outcome cs swaps.tail a ha with ⟨u, hu, _, htid⟩
          rw [htid] at hc
          have he : u.taskId = t.taskId := Option.some_injective _ hc
          exact hdisj (List.mem_map_of_mem _ hmc) (he ▸ List.mem_map_of_mem _ hu)
        rw [runAll_untargeted _ _ _ htail]
        exact chunk_effect_self outcome (swaps.headD false) c
          (hlen c (List.mem_cons_self c cs)) hnd1 s t hmc hf
      · have hhead : ∀ a ∈ chunkActions outcome (swaps.headD false) c,
            actionTid a ≠ some t.taskId := by
          intro a ha hc
          rcases chunkActions_tids outcome (swaps.headD false) c a ha with ⟨u, hu, _, htid⟩
          rw [htid] at hc
          have he : u.taskId = t.taskId := Option.some_injective _ hc
          exact hdisj (he ▸ List.mem_map_of_mem _ hu) (List.mem_map_of_mem _ hmcs)
        rw [ih swaps.tail _ t (fun c' hc' => hlen c' (List.mem_cons_of_mem c hc')) hnd2 hmcs hf,
          runAll_untargeted _ _ _ hhead]

set_option maxRecDepth 8192 in
/-- C8: in the Upload Scheduler (modelled by `schedActions`: chunks of at most
two tasks, `uploading` dispatches before the chunk's transfers, settles in
either order, then the single start-processing call), for every scheduled task
with a file: its `uploading` dispatch precedes its settle in the event trace;
its final record is its initial record updated to `uploading` and then - only
if its own transfer failed - to `error` with that transfer's message, so one
task's failure never touches a sibling's record; all transfers have settled at
the end; and start-processing is invoked exactly once, however many transfers
failed. -/
theorem c8_upload_error_isolation (tasks : List UploadTask)
    (outcome : String → Option String) (swaps : List Bool) (s0 : SchedState)
    (hnd : (tasks.map (fun u => u.taskId)).Nodup)
    (hinf : s0.inflight = []) (hsc : s0.startCalls = 0) :
    (∀ t ∈ tasks, t.hasFile = true →
      [UpAction.setUploading t.taskId, settleOf outcome t].Sublist
        (schedActions tasks outcome swaps))
    ∧ (∀ t ∈ tasks, t.hasFile = true →
        taskById (runAll s0 (schedActions tasks outcome swaps)).app t.taskId
          = (taskById s0.app t.taskId).map (upEffect outcome t.taskId))
    ∧ (runAll s0 (schedActions tasks outcome swaps)).inflight = []
    ∧ (runAll s0 (schedActions tasks outcome swaps)).startCalls = 1 := by
  refine ⟨?_, ?_, ?_, ?_⟩
  · intro t ht hf
    exact pair_sublist_sched tasks outcome swaps t ht hf
  · intro t ht hf
    show taskById (runAll s0 (chunkedActions outcome (chunksOf tasks) swaps
      ++ [UpAction.startProc])).app t.taskId = _
    rw [runAll_append]
    have hlast : taskById (runAll (runAll s0 (chunkedActions outcome (chunksOf tasks) swaps))
        [UpAction.startProc]).app t.taskId
        = taskById (runAll s0 (chunkedActions outcome (chunksOf tasks) swaps)).app t.taskId :=
      rfl
    rw [hlast]
    apply chunked_effect outcome (chunksOf tasks) swaps s0 t (chunksOf_len tasks)
    · rw [chunksOf_join]; exact hnd
    · rw [chunksOf_join]; exact ht
    · exact hf
  · show (runAll s0 (chunkedActions outcome (chunksOf tasks) swaps
      ++ [UpAction.startProc])).inflight = []
    rw [runAll_inflight, List.foldl_append, hinf,
      (chunked_inflight outcome (chunksOf tasks) swaps (chunksOf_len tasks)).2]
    rfl
  · show (runAll s0 (chunkedActions outcome (chunksOf tasks) swaps
      ++ [UpAction.startProc])).startCalls = 1
    rw [runAll_startCalls, hsc, List.countP_append,
      chunkedActions_no_start outcome (chunksOf tasks) swaps]
    rfl

/-- An outcome assignment under which the second task's transfer fails. -/
def c8Outcome : String → Option String :=
  fun tid => if tid = "t2" then some "boom" else none

set_option maxRecDepth 8192 in
theorem c8_upload_error_isolation_witness :
    ((c2Batch.tasks.map (fun u => u.taskId)).Nodup
      ∧ ({ app := appReducer {} (.startBatchUpload c2Batch) } : SchedState).inflight = []
      ∧ ({ app := appReducer {} (.startBatchUpload c2Batch) } : SchedState).startCalls = 0)
    ∧ ((∀ t ∈ c2Batch.tasks, t.hasFile = true →
          [UpAction.setUploading t.taskId, settleOf c8Outcome t].Sublist
            (schedActions c2Batch.tasks c8Outcome [true]))
        ∧ (∀ t ∈ c2Batch.tasks, t.hasFile = true →
            taskById (runAll { app := appReducer {} (.startBatchUpload c2Batch) }
                (schedActions c2Batch.tasks c8Outcome [true])).app t.taskId
              = (taskById ({ app := appReducer {} (.startBatchUpload c2Batch) } : SchedState).app
                  t.taskId).map (upEffect c8Outcome t.taskId))
        ∧ (runAll { app := appReducer {} (.startBatchUpload c2Batch) }
            (schedActions c2Batch.tasks c8Outcome [true])).inflight = []
        ∧ (runAll { app := appReducer {} (.startBatchUpload c2Batch) }
            (schedActions c2Batch.tasks c8Outcome [true])).startCalls = 1) :=
  ⟨⟨by decide, rfl, rfl⟩,
    c8_upload_error_isolation c2Batch.tasks c8Outcome [true]
      { app := appReducer {} (.startBatchUpload c2Batch) } (by decide) rfl rfl⟩

end ARC
